import Mathlib

/-!
# Verification of the conversation-game core

Shallow embedding of the turn-based conversation game: the `Engine`
(`src/core/engine.py`), the agent-side `ConversationScorer`
(`src/players/player_3/utils.py`) and the Bayesian-tree beam search with its
strategy wrapper (`src/players/player_3/bst_player_presets.py`).

Modelling conventions:
* Python floats are embedded as `ℚ`; `uuid.UUID` identifiers as `ℕ`.
* The globally seeded PRNG (`random.seed(seed)` at `Engine.__init__`) is
  embedded as a `Rng` record holding two value streams and a position counter;
  a seed determines the streams.  `uuid.uuid4`, which does *not* draw from the
  seeded PRNG, is a separate `IdGen` stream.
* `list[Item | None]` histories become `List (Option Item)`; `None` = pause.
-/

/-- `models/item.py`: immutable item value.  `id` and `player_id` are uuids in
the source, embedded as naturals. -/
structure Item where
  id : ℕ
  player_id : ℕ
  importance : ℚ
  subjects : List ℕ
  deriving DecidableEq, Repr

/-- `models/player.py` `PlayerSnapshot`. -/
structure PlayerSnapshot where
  id : ℕ
  preferences : List ℕ
  memory_bank : List Item
  deriving DecidableEq, Repr

/-- `models/player.py` `GameContext`. -/
structure GameContext where
  number_of_players : ℕ
  conversation_length : ℕ
  deriving DecidableEq, Repr

/-- A history entry: `some item` for a spoken item, `none` for a pause. -/
abbrev HistEntry := Option Item

/-- All subjects (with multiplicity) of a list of items, as produced by the
`Counter(s for item in context_items for s in item.subjects)` comprehensions. -/
def subjectsOfItems (l : List Item) : List ℕ :=
  (l.map Item.subjects).flatten

/-- Prefix of a window up to (and excluding) the first pause: models the
`break`-on-`None` loops of the Engine's windowed scores. -/
def takeUntilNone (l : List HistEntry) : List Item :=
  match l with
  | [] => []
  | none :: _ => []
  | some a :: rest => a :: takeUntilNone rest

namespace Engine

/-- The backward context loop of `Engine.__calculate_coherence_score`
(engine.py:131-134): entries `i-1, i-2, i-3`, stopping at a pause or at
index 0. -/
def pastContext (history : List HistEntry) (i : ℕ) : List Item :=
  takeUntilNone (((history.take i).reverse).take 3)

/-- The forward context loop of `Engine.__calculate_coherence_score`
(engine.py:136-139): entries `i+1, i+2, i+3`, stopping at a pause or at the
end of the history. -/
def futureContext (history : List HistEntry) (i : ℕ) : List Item :=
  takeUntilNone ((history.drop (i + 1)).take 3)

/-- `Engine.__calculate_coherence_score` (engine.py:128-150). -/
def calculate_coherence_score (history : List HistEntry) (i : ℕ) (item : Item) : ℚ :=
  let ctx := pastContext history i ++ futureContext history i
  let subj := subjectsOfItems ctx
  (if item.subjects.all (fun s => decide (0 < subj.count s)) then 0 else -1) +
    (if item.subjects.all (fun s => decide (2 ≤ subj.count s)) then 1 else 0)

/-- `Engine.__calculate_freshness_score` (engine.py:117-126).  The window is
the raw slice `history[max(0, i-6) : i-1]` with pauses filtered out. -/
def calculate_freshness_score (history : List HistEntry) (i : ℕ) (item : Item) : ℚ :=
  if i = 0 then 0
  else if history[i-1]? ≠ some none then 0
  else
    let window := (history.take (i - 1)).drop (i - 6)
    let priorSubjects := subjectsOfItems (window.filterMap id)
    ((item.subjects.filter (fun s => decide (s ∉ priorSubjects))).length : ℚ)

/-- `Engine.__calculate_nonmonotonousness_score` (engine.py:152-168). -/
def calculate_nonmonotonousness_score (history : List HistEntry) (i : ℕ) (item : Item)
    (repeated : Bool) : ℚ :=
  if repeated then -1
  else if i < 3 then 0
  else if ([history[i-3]?, history[i-2]?, history[i-1]?].all fun e =>
      match e with
      | some (some prev) => item.subjects.any (fun s => prev.subjects.contains s)
      | _ => false) then -1
  else 0

/-- The per-item preference bonus of `Engine.__calculate_individual_score`
(engine.py:181-187): average over the item's subjects present in the ranking of
`1 - rank/|preferences|`; an item with no subject in the ranking adds nothing. -/
def itemBonus (preferences : List ℕ) (item : Item) : ℚ :=
  let bonuses := (item.subjects.filter (fun s => preferences.contains s)).map
    (fun s => 1 - (preferences.indexOf s : ℚ) / (preferences.length : ℚ))
  if bonuses.length = 0 then 0 else bonuses.sum / (bonuses.length : ℚ)

/-- `Engine.__calculate_individual_score` (engine.py:170-191) for one player:
the loop runs over the whole history, every non-pause item contributing its
bonus under this player's preferences. -/
def calculate_individual_score (preferences : List ℕ) (history : List HistEntry) : ℚ :=
  history.foldl
    (fun acc e => match e with
      | none => acc
      | some item => acc + itemBonus preferences item) 0

/-- Accumulator of `Engine.__calculate_scores` (engine.py:193-224). -/
structure ScoreAcc where
  importance : ℚ
  coherence : ℚ
  freshness : ℚ
  nonmonotonousness : ℚ
  uniqueIds : List ℕ
  deriving DecidableEq, Repr

def ScoreAcc.init : ScoreAcc := ⟨0, 0, 0, 0, []⟩

/-- Total shared score of an accumulator (engine.py:222-224). -/
def ScoreAcc.shared (a : ScoreAcc) : ℚ :=
  a.coherence + a.freshness + a.importance + a.nonmonotonousness

/-- One iteration of the `for i, current_item in enumerate(self.history)` loop
of `Engine.__calculate_scores`. -/
def scoresStep (history : List HistEntry) (acc : ScoreAcc) (i : ℕ) : ScoreAcc :=
  match history[i]? with
  | some (some item) =>
    if acc.uniqueIds.contains item.id then
      { acc with nonmonotonousness :=
          acc.nonmonotonousness + calculate_nonmonotonousness_score history i item true }
    else
      { importance := acc.importance + item.importance
        coherence := acc.coherence + calculate_coherence_score history i item
        freshness := acc.freshness + calculate_freshness_score history i item
        nonmonotonousness :=
          acc.nonmonotonousness + calculate_nonmonotonousness_score history i item false
        uniqueIds := acc.uniqueIds ++ [item.id] }
  | _ => acc

/-- `Engine.__calculate_scores` run over the first `n` history positions. -/
def calculate_scores_upto (history : List HistEntry) (n : ℕ) : ScoreAcc :=
  (List.range n).foldl (scoresStep history) ScoreAcc.init

/-- `Engine.__calculate_scores` (engine.py:193-224), shared components. -/
def calculate_scores (history : List HistEntry) : ScoreAcc :=
  calculate_scores_upto history history.length

/-- The repeat test of `Engine._calculate_turn_score_impact` (engine.py:278-280):
`any(existing_item and existing_item.id == item.id for existing_item in hs)`. -/
def isRepeatedIn (hs : List HistEntry) (item : Item) : Bool :=
  hs.any fun e =>
    match e with
    | some it => it.id == item.id
    | none => false

/-- Shared-score components of one turn. -/
structure TurnImpact where
  importance : ℚ
  coherence : ℚ
  freshness : ℚ
  nonmonotonousness : ℚ
  deriving DecidableEq, Repr

/-- `impact['total']` (engine.py:310-314): sum of the four shared components. -/
def TurnImpact.total (t : TurnImpact) : ℚ :=
  t.importance + t.coherence + t.freshness + t.nonmonotonousness

/-- Shared part of `Engine._calculate_turn_score_impact` (engine.py:271-295):
`history` is `self.history` *after* the item has been appended, so the scored
position is `turn_idx = len(self.history) - 1` and the repeat check runs over
`self.history[:-1]`. -/
def calculate_turn_score_impact (history : List HistEntry) (item : Item) : TurnImpact :=
  let turn_idx := history.length - 1
  if isRepeatedIn history.dropLast item then
    { importance := 0
      coherence := 0
      freshness := 0
      nonmonotonousness := calculate_nonmonotonousness_score history turn_idx item true }
  else
    { importance := item.importance
      coherence := calculate_coherence_score history turn_idx item
      freshness := calculate_freshness_score history turn_idx item
      nonmonotonousness := calculate_nonmonotonousness_score history turn_idx item false }

end Engine

namespace Scorer

/-- `ConversationScorer.is_repeated` (utils.py:20-22). -/
def is_repeated (item : Item) (history : List HistEntry) : Bool :=
  history.any fun e =>
    match e with
    | some it => it.id == item.id
    | none => false

/-- `ConversationScorer.calculate_freshness_score` (utils.py:24-35): identical
windowing to the Engine's, with the candidate at `position` not yet in
`history`. -/
def calculate_freshness_score (item : Item) (position : ℕ) (history : List HistEntry) : ℚ :=
  if position = 0 then 0
  else if history[position-1]? ≠ some none then 0
  else
    let window := (history.take (position - 1)).drop (position - 6)
    let priorSubjects := subjectsOfItems (window.filterMap id)
    ((item.subjects.filter (fun s => decide (s ∉ priorSubjects))).length : ℚ)

/-- `ConversationScorer.calculate_coherence_score` (utils.py:38-63): the
Engine's coherence with the forward (future) loop removed. -/
def calculate_coherence_score (item : Item) (position : ℕ) (history : List HistEntry) : ℚ :=
  let ctx := Engine.pastContext history position
  let subj := subjectsOfItems ctx
  (if item.subjects.all (fun s => decide (0 < subj.count s)) then 0 else -1) +
    (if item.subjects.all (fun s => decide (2 ≤ subj.count s)) then 1 else 0)

/-- `ConversationScorer.calculate_nonmonotonousness_score` (utils.py:65-84). -/
def calculate_nonmonotonousness_score (item : Item) (position : ℕ) (history : List HistEntry)
    (repeated : Bool) : ℚ :=
  if repeated then -1
  else if position < 3 then 0
  else if ([history[position-3]?, history[position-2]?, history[position-1]?].all fun e =>
      match e with
      | some (some prev) => item.subjects.any (fun s => prev.subjects.contains s)
      | _ => false) then -1
  else 0

/-- `ConversationScorer.calculate_others_coherence_score_update` (utils.py:87-109):
re-scores the up-to-3 items before `position` with and without `item` appended
and sums the aligned differences. -/
def calculate_others_coherence_score_update (item : Item) (position : ℕ)
    (history : List HistEntry) : ℚ :=
  let idxs := (List.range position).drop (position - 3)
  let originalScores := idxs.filterMap fun i =>
    (history[i]?.bind id).map fun it => calculate_coherence_score it i history
  let newScores := idxs.filterMap fun i =>
    ((history ++ [some item])[i]?.bind id).map fun it =>
      calculate_coherence_score it i (history ++ [some item])
  ((newScores.zip originalScores).map fun p => p.1 - p.2).sum

/-- `ConversationScorer.calculate_individual_score` (utils.py:111-120). -/
def calculate_individual_score (preferences : List ℕ) (item : Item) : ℚ :=
  Engine.itemBonus preferences item

/-- `ConversationScorer.calculate_shared_score` (utils.py:122-147). -/
def calculate_shared_score (item : Item) (history : List HistEntry) : ℚ :=
  let position := history.length
  let repeated := is_repeated item history
  let importance : ℚ := if repeated then 0 else item.importance
  let coherence : ℚ :=
    if repeated then 0
    else calculate_coherence_score item position history +
      calculate_others_coherence_score_update item position history
  let freshness : ℚ :=
    if repeated then 0 else calculate_freshness_score item position history
  let nonmonotonousness := calculate_nonmonotonousness_score item position history repeated
  importance + coherence + freshness + nonmonotonousness

/-- `ConversationScorer.evaluate` (utils.py:158-164). -/
def evaluate (preferences : List ℕ) (competition_rate : ℚ) (item : Item)
    (history : List HistEntry) : ℚ :=
  competition_rate * calculate_individual_score preferences item +
    (1 - competition_rate) * calculate_shared_score item history

end Scorer

/-- The seeded global PRNG (`random.seed(seed)` at engine.py:20).  A seed
determines the two value streams; `pos` is the number of draws consumed.
CPython's generator internals are abstracted: `floats` supplies the
`random.random()` values and `nats` the index draws behind `random.choice` /
`random.sample`. -/
structure Rng where
  floats : ℕ → ℚ
  nats : ℕ → ℕ
  pos : ℕ

/-- `random.random()`. -/
def Rng.nextFloat (r : Rng) : ℚ × Rng :=
  (r.floats r.pos, { r with pos := r.pos + 1 })

/-- `random.choice(l)`: one draw, reduced modulo the list length. -/
def Rng.choice {α : Type} (r : Rng) (l : List α) : Option α × Rng :=
  (l[r.nats r.pos % l.length]?, { r with pos := r.pos + 1 })

/-- `uuid.uuid4()`: a stream of fresh identifiers.  It is *not* derived from
the seeded PRNG (CPython draws it from `os.urandom`), hence kept separate from
`Rng`. -/
structure IdGen where
  gen : ℕ → ℕ
  pos : ℕ

def IdGen.fresh (g : IdGen) : ℕ × IdGen :=
  (g.gen g.pos, { g with pos := g.pos + 1 })

/-- `random.sample(pool, k)`: `k` distinct positions drawn without replacement,
modelled as successive index draws from the seeded stream. -/
def sampleDraw : ℕ → List ℕ → Rng → List ℕ × Rng
  | 0, _, r => ([], r)
  | k + 1, pool, r =>
    let idx := r.nats r.pos % pool.length
    let x := pool[idx]?.getD 0
    let (rest, r') := sampleDraw k (pool.eraseIdx idx) { r with pos := r.pos + 1 }
    (x :: rest, r')

/-- `round(x, 2)` on the generated importance value (engine.py:69), modelled as
round-to-nearest on `ℚ`. -/
def round2 (q : ℚ) : ℚ :=
  ((⌊q * 100 + 1/2⌋ : ℤ) : ℚ) / 100

namespace Engine

/-- One iteration of the generation loop of `Engine.__generate_items`
(engine.py:66-75). -/
def generateItem (subjects : List ℕ) (player_id : ℕ) (r : Rng) (g : IdGen) :
    Item × Rng × IdGen :=
  let (f1, r1) := r.nextFloat
  let samples := if f1 < 1/2 then 1 else 2
  let (f2, r2) := r1.nextFloat
  let importance := round2 f2
  let (subs, r3) := sampleDraw samples subjects r2
  let (id, g1) := g.fresh
  (⟨id, player_id, importance, subs⟩, r3, g1)

/-- `Engine.__generate_items` (engine.py:63-77). -/
def generateItems (subjects : List ℕ) (memory_size : ℕ) (player_id : ℕ)
    (r : Rng) (g : IdGen) : List Item × Rng × IdGen :=
  match memory_size with
  | 0 => ([], r, g)
  | n + 1 =>
    let (item, r1, g1) := generateItem subjects player_id r g
    let (rest, r2, g2) := generateItems subjects n player_id r1 g1
    (item :: rest, r2, g2)

/-- One player's snapshot as built by `Engine.__initialize_snapshots`
(engine.py:48-56): a fresh uuid, then `__generate_preference` (a permutation of
the subjects via `random.sample`), then the memory bank. -/
def makeSnapshot (subjects : List ℕ) (memory_size : ℕ) (r : Rng) (g : IdGen) :
    PlayerSnapshot × Rng × IdGen :=
  let (pid, g1) := g.fresh
  let (prefs, r1) := sampleDraw subjects.length subjects r
  let (bank, r2, g2) := generateItems subjects memory_size pid r1 g1
  (⟨pid, prefs, bank⟩, r2, g2)

/-- `Engine.__initialize_snapshots` over `player_count` players. -/
def makeSnapshots (subjects : List ℕ) (memory_size : ℕ) (player_count : ℕ)
    (r : Rng) (g : IdGen) : List PlayerSnapshot × Rng × IdGen :=
  match player_count with
  | 0 => ([], r, g)
  | n + 1 =>
    let (s, r1, g1) := makeSnapshot subjects memory_size r g
    let (rest, r2, g2) := makeSnapshots subjects memory_size n r1 g1
    (s :: rest, r2, g2)

/-- An agent's `propose_item` capability: a pure function of the history
snapshot it receives. -/
abbrev Policy := List HistEntry → Option Item

/-- Mutable engine state (engine.py:27-31).  Contributions are kept as an
association list in snapshot order, mirroring the insertion-ordered dict. -/
structure EngineState where
  history : List HistEntry
  last_player_id : Option ℕ
  turn : ℕ
  consecutive_pauses : ℕ
  player_contributions : List (ℕ × List Item)

/-- Lookup in the contributions dict. -/
def contribOf (contribs : List (ℕ × List Item)) (pid : ℕ) : List Item :=
  ((contribs.find? (fun p => p.1 == pid)).map Prod.snd).getD []

/-- Append a spoken item to the speaker's contribution list. -/
def addContrib (contribs : List (ℕ × List Item)) (pid : ℕ) (item : Item) :
    List (ℕ × List Item) :=
  contribs.map fun p => if p.1 == pid then (p.1, p.2 ++ [item]) else p

/-- `Engine.__get_proposals` (engine.py:79-87): ask every player in order and
keep the proposal only when it is non-`None` *and* in that player's own memory
bank. -/
def getProposals (players : List (PlayerSnapshot × Policy)) (history : List HistEntry) :
    List (ℕ × Item) :=
  players.foldl
    (fun acc p =>
      match p.2 history with
      | some it => if p.1.memory_bank.contains it then acc ++ [(p.1.id, it)] else acc
      | none => acc) []

/-- The fairness rule of `Engine.__select_speaker` (engine.py:105-115): uniform
choice among proposers tied for the fewest contributions. -/
def selectByFairness (proposals : List (ℕ × Item)) (contribs : List (ℕ × List Item))
    (r : Rng) : Option (ℕ × Item) × Rng :=
  let counts := proposals.map fun p => (contribOf contribs p.1).length
  let minContributions := counts.foldr min (counts.headD 0)
  let eligible := proposals.filter fun p =>
    (contribOf contribs p.1).length == minContributions
  r.choice eligible

/-- `Engine.__select_speaker` (engine.py:89-115).  Consumes one float draw only
when the previous speaker proposed again, and one choice draw for the fairness
rule. -/
def selectSpeaker (proposals : List (ℕ × Item)) (last_player_id : Option ℕ)
    (contribs : List (ℕ × List Item)) (r : Rng) : Option (ℕ × Item) × Rng :=
  if proposals.isEmpty then (none, r)
  else
    let lastProposal := last_player_id.bind fun lp =>
      (proposals.find? (fun p => p.1 == lp)).map fun p => (lp, p.2)
    match lastProposal with
    | some lpItem =>
      let (f, r1) := r.nextFloat
      if f < 1/2 then (some lpItem, r1)
      else selectByFairness proposals contribs r1
    | none => selectByFairness proposals contribs r

/-- `Engine.__turn` (engine.py:318-342), state transition part. -/
def turnStep (players : List (PlayerSnapshot × Policy)) (st : EngineState) (r : Rng) :
    EngineState × Rng :=
  let proposals := getProposals players st.history
  let sel := selectSpeaker proposals st.last_player_id st.player_contributions r
  match sel.1 with
  | some si =>
    ({ history := st.history ++ [some si.2]
       last_player_id := some si.1
       turn := st.turn + 1
       consecutive_pauses := 0
       player_contributions := addContrib st.player_contributions si.1 si.2 }, sel.2)
  | none =>
    ({ history := st.history ++ [none]
       last_player_id := none
       turn := st.turn + 1
       consecutive_pauses := st.consecutive_pauses + 1
       player_contributions := st.player_contributions }, sel.2)

/-- The `while` loop of `Engine.run` (engine.py:353-358): run turns while
`turn < conversation_length`, stopping after a turn that reaches 3 consecutive
pauses.  `fuel` bounds the iteration count; every call supplies enough fuel
for the loop's own termination condition. -/
def runLoop (players : List (PlayerSnapshot × Policy)) (conversation_length : ℕ) :
    ℕ → EngineState → Rng → EngineState × Rng
  | 0, st, r => (st, r)
  | fuel + 1, st, r =>
    if st.turn < conversation_length then
      let step := turnStep players st r
      if 3 ≤ step.1.consecutive_pauses then step
      else runLoop players conversation_length fuel step.1 step.2
    else (st, r)

/-- Full pipeline of `Engine.__init__` + `Engine.run`: seed-derived stream in,
uuid stream in, agent constructors in; the whole game is a pure function of
these inputs.  `ctors` plays the role of the `players` list of classes. -/
def engineRun (ctors : List (PlayerSnapshot → GameContext → Policy))
    (subjects_count memory_size conversation_length : ℕ)
    (r : Rng) (g : IdGen) : EngineState × List PlayerSnapshot × Rng :=
  let subjects := List.range subjects_count
  let player_count := ctors.length
  let gen := makeSnapshots subjects memory_size player_count r g
  let snapshots := gen.1
  let ctx : GameContext := ⟨player_count, conversation_length⟩
  let players := snapshots.zipWith (fun s c => (s, c s ctx)) ctors
  let st0 : EngineState :=
    { history := []
      last_player_id := none
      turn := 0
      consecutive_pauses := 0
      player_contributions := snapshots.map fun s => (s.id, []) }
  let res := runLoop players conversation_length conversation_length st0 gen.2.1
  (res.1, snapshots, res.2)

/-- Per-player totals of `Engine.final_scores` (engine.py:235-254):
`(shared + individual) / conversation_length` for each snapshot. -/
def finalScores (snapshots : List PlayerSnapshot) (history : List HistEntry)
    (conversation_length : ℕ) : List (ℕ × ℚ) :=
  let shared := (calculate_scores history).shared
  snapshots.map fun s =>
    (s.id,
      if conversation_length = 0 then 0
      else (shared + calculate_individual_score s.preferences history) /
        (conversation_length : ℚ))

/-- `Engine.run`'s final score report: the per-player totals computed from the
run's snapshots and final history. -/
def engineRunScores (ctors : List (PlayerSnapshot → GameContext → Policy))
    (subjects_count memory_size conversation_length : ℕ)
    (r : Rng) (g : IdGen) : List (ℕ × ℚ) :=
  let res := engineRun ctors subjects_count memory_size conversation_length r g
  finalScores res.2.1 res.1.history conversation_length

end Engine

/-- `BayesianTreeNode` (bst_player_presets.py:12-23).  Nodes live in an arena
(`BayesianTree.nodes`); the arena index plays the role of Python object
identity (`id(node)`, `is`, `in childs`).  `father`/`childs` hold indices. -/
structure BTNode where
  prior_probability : ℚ
  memory : Option Item
  score : Option ℚ
  father : Option ℕ
  childs : List ℕ
  deriving DecidableEq, Repr

/-- `BayesianTree` (bst_player_presets.py:26-74).  The unused `size` counter of
the source (set to 0 and never written again) is omitted. -/
structure BayesianTree where
  decay_rate : ℚ
  root_probability : ℚ
  nodes : List BTNode
  root : Option ℕ
  deriving DecidableEq, Repr

namespace BayesianTree

/-- Update the node at index `i`. -/
def modifyNode (t : BayesianTree) (i : ℕ) (f : BTNode → BTNode) : BayesianTree :=
  { t with nodes :=
      match t.nodes[i]? with
      | some n => t.nodes.set i (f n)
      | none => t.nodes }

/-- `BayesianTree.get_child_probability` (bst_player_presets.py:33-34). -/
def get_child_probability (t : BayesianTree) (i : ℕ) : ℚ :=
  ((t.nodes[i]?.map BTNode.prior_probability).getD 0) * t.decay_rate

/-- `BayesianTree.add_node` (bst_player_presets.py:36-54): returns the fresh
node's index and the updated tree.  When the tree already has a root, the new
node's prior is `father.prior_probability * decay_rate` and it is appended to
`father.childs`. -/
def add_node (t : BayesianTree) (father : Option ℕ) (memory : Option Item)
    (score : Option ℚ) : ℕ × BayesianTree :=
  let idx := t.nodes.length
  match t.root with
  | none =>
    let node : BTNode := ⟨t.root_probability, memory, score, father, []⟩
    (idx, { t with nodes := t.nodes ++ [node], root := some idx })
  | some _ =>
    let prior := match father with
      | some f => get_child_probability t f
      | none => 0
    let node : BTNode := ⟨prior, memory, score, father, []⟩
    let t1 := { t with nodes := t.nodes ++ [node] }
    match father with
    | some f => (idx, modifyNode t1 f fun n => { n with childs := n.childs ++ [idx] })
    | none => (idx, t1)

/-- `BayesianTree.remove_node` (bst_player_presets.py:56-63): detach `idx` from
its father (no-op for the root / parentless nodes). -/
def remove_node (t : BayesianTree) (idx : ℕ) : BayesianTree :=
  match t.nodes[idx]? with
  | none => t
  | some n =>
    match n.father with
    | none => t
    | some f =>
      let t1 := modifyNode t f fun fn => { fn with childs := fn.childs.erase idx }
      modifyNode t1 idx fun nn => { nn with father := none }

/-- `BayesianTree.leaf_branch_backward_prunning` (bst_player_presets.py:65-74):
remove a leaf and recursively collapse ancestors that become leaves, stopping
at parentless nodes.  `fuel` bounds the father-chain walk; callers pass the
arena size, which always suffices since father indices strictly decrease. -/
def leaf_branch_backward_prunning : ℕ → BayesianTree → ℕ → BayesianTree
  | 0, t, _ => t
  | fuel + 1, t, idx =>
    match t.nodes[idx]? with
    | none => t
    | some n =>
      if n.childs.isEmpty then
        let t1 := remove_node t idx
        match n.father with
        | none => t1
        | some f => leaf_branch_backward_prunning fuel t1 f
      else t

end BayesianTree

namespace BeamSearch

/-- `BayesianTreeBeamSearch._tree_branch_to_list` (bst_player_presets.py:101-108),
the father-chain walk before the final reversal. -/
def branchWalk (t : BayesianTree) : ℕ → Option ℕ → ℕ → List ℕ
  | 0, _, _ => []
  | _ + 1, none, _ => []
  | fuel + 1, some idx, tail =>
    if idx = tail then []
    else idx :: branchWalk t fuel (t.nodes[idx]?.bind BTNode.father) tail

/-- `BayesianTreeBeamSearch._tree_branch_to_list`: root-ward path from
`endNode` up to (excluding) `tail`, returned root-first. -/
def tree_branch_to_list (t : BayesianTree) (endNode tail : ℕ) : List ℕ :=
  (branchWalk t t.nodes.length (some endNode) tail).reverse

/-- `BayesianTreeBeamSearch._compute_normalized_expectation`
(bst_player_presets.py:110-123): fold over the path accumulating
`Σ prior·score` and `Σ prior`, skipping nodes with `memory is None` or
`score is None`; `0` when the probability mass is zero. -/
def compute_normalized_expectation (t : BayesianTree) (endNode tail : ℕ) : ℚ :=
  let path := tree_branch_to_list t endNode tail
  let acc := path.foldl
    (fun (acc : ℚ × ℚ) i =>
      match t.nodes[i]? with
      | none => acc
      | some n =>
        match n.memory with
        | none => acc
        | some _ =>
          match n.score with
          | none => acc
          | some s => (acc.1 + n.prior_probability * s, acc.2 + n.prior_probability))
    (0, 0)
  if acc.2 = 0 then 0 else acc.1 / acc.2

/-- The tuple order of the `(score, id(node), node)` heap entries of
`_find_top_nodes`: descending on score, ties broken by the identity field
(arena index). -/
def keyBefore (a b : ℚ × ℕ) : Prop :=
  b.1 < a.1 ∨ (b.1 = a.1 ∧ b.2 ≤ a.2)

instance : DecidableRel keyBefore := fun a b => by
  unfold keyBefore
  infer_instance

/-- `BayesianTreeBeamSearch._find_top_nodes` (bst_player_presets.py:87-99):
`heapq.nlargest(width, heap)` over `(score, id, node)` tuples = the `width`
largest candidates in descending `(score, id)` order. -/
def find_top_nodes (t : BayesianTree) (width : ℕ) (nodes : List ℕ) (start : ℕ) :
    List ℕ :=
  let keyed := nodes.map fun i => (compute_normalized_expectation t i start, i)
  ((keyed.insertionSort keyBefore).take width).map Prod.snd

/-- The node evaluator injected into the search: `self.scorer.evaluate`
(duck-typed in the source, a function parameter here). -/
abbrev EvalFn := Item → List HistEntry → ℚ

/-- The per-leaf body of the `for leaf in leaves` loop of
`forward_construct_search_tree` (bst_player_presets.py:135-154): carried-over
pause leaves are re-queued unexpanded; other leaves get one scored child per
memory item plus one pause child with score 0.  The `context_stack`
extend/restore pair is modelled as a local extension. -/
def expandLeaf (evalFn : EvalFn) (items : List Item) (context : List HistEntry)
    (start : ℕ) (t : BayesianTree) (leaf : ℕ) : BayesianTree × List ℕ :=
  let isCarriedPause :=
    match t.nodes[leaf]? with
    | some n => n.memory.isNone && leaf != start
    | none => false
  if isCarriedPause then (t, [leaf])
  else
    let branchNodes := tree_branch_to_list t leaf start
    let branchItems := branchNodes.filterMap fun i => t.nodes[i]?.bind BTNode.memory
    let ctx := context ++ branchItems.map some
    let expanded := items.foldl
      (fun (acc : BayesianTree × List ℕ) item =>
        let score := evalFn item ctx
        let (idx, t') := acc.1.add_node (some leaf) (some item) (some score)
        (t', acc.2 ++ [idx]))
      (t, [])
    let (pauseIdx, t2) := expanded.1.add_node (some leaf) none (some 0)
    (t2, expanded.2 ++ [pauseIdx])

/-- The whole `for leaf in leaves` expansion phase of one level
(bst_player_presets.py:135-154): returns the expanded tree and
`next_level_candidates`. -/
def expandAll (evalFn : EvalFn) (items : List Item) (context : List HistEntry)
    (start : ℕ) (t : BayesianTree) (leaves : List ℕ) : BayesianTree × List ℕ :=
  leaves.foldl
    (fun (acc : BayesianTree × List ℕ) leaf =>
      let (t', cs) := expandLeaf evalFn items context start acc.1 leaf
      (t', acc.2 ++ cs))
    (t, [])

/-- The pruning phase of one level (bst_player_presets.py:159-162): prune every
candidate that was not selected and does not hold a pause. -/
def pruneUnselected (candidates newLeaves : List ℕ) (t : BayesianTree) : BayesianTree :=
  candidates.foldl
    (fun tt c =>
      if ¬ newLeaves.contains c ∧ (tt.nodes[c]?.bind BTNode.memory).isSome then
        BayesianTree.leaf_branch_backward_prunning tt.nodes.length tt c
      else tt)
    t

/-- One iteration of the `while leaves and depth < self.depth` loop
(bst_player_presets.py:133-164): expand every leaf, select the global top-W
candidates, prune unselected non-pause candidates. -/
def levelStep (evalFn : EvalFn) (items : List Item) (context : List HistEntry)
    (start : ℕ) (width : ℕ) (t : BayesianTree) (leaves : List ℕ) :
    BayesianTree × List ℕ :=
  let expanded := expandAll evalFn items context start t leaves
  let newLeaves := find_top_nodes expanded.1 width expanded.2 start
  (pruneUnselected expanded.2 newLeaves expanded.1, newLeaves)

/-- The level loop of `forward_construct_search_tree`, recursing on the number
of remaining levels (`depth - depth_so_far`). -/
def forwardLoop (evalFn : EvalFn) (items : List Item) (context : List HistEntry)
    (start : ℕ) (width : ℕ) : ℕ → BayesianTree → List ℕ → BayesianTree × List ℕ
  | 0, t, leaves => (t, leaves)
  | d + 1, t, leaves =>
    if leaves.isEmpty then (t, leaves)
    else
      let (t1, leaves1) := levelStep evalFn items context start width t leaves
      forwardLoop evalFn items context start width d t1 leaves1

/-- `BayesianTreeBeamSearch.forward_construct_search_tree`
(bst_player_presets.py:125-164) with `start_node = tree.root`. -/
def forward_construct_search_tree (evalFn : EvalFn) (depth width : ℕ)
    (context : List HistEntry) (items : List Item) (t : BayesianTree) :
    BayesianTree × List ℕ :=
  let start := t.root.getD 0
  forwardLoop evalFn items context start width depth t [start]

/-- `BayesianTreeBeamSearch.backward_get_best_candidate`
(bst_player_presets.py:166-181): a leaf reports its own normalized expectation;
an internal node starts from its own expectation and replaces it whenever a
child's subtree reports a strictly better score, remembering that immediate
child.  `fuel` bounds the recursion depth (arena size suffices). -/
def backward_get_best_candidate (t : BayesianTree) (rootForScore : ℕ) :
    ℕ → ℕ → Option ℕ × ℚ
  | 0, idx => (none, compute_normalized_expectation t idx rootForScore)
  | fuel + 1, idx =>
    match t.nodes[idx]? with
    | none => (none, compute_normalized_expectation t idx rootForScore)
    | some n =>
      if n.childs.isEmpty then
        (none, compute_normalized_expectation t idx rootForScore)
      else
        n.childs.foldl
          (fun (best : Option ℕ × ℚ) child =>
            let cand := backward_get_best_candidate t rootForScore fuel child
            if cand.2 > best.2 then (some child, cand.2) else best)
          (none, compute_normalized_expectation t idx rootForScore)

/-- `BayesianTreeBeamSearch.search` (bst_player_presets.py:183-191): fresh tree
with `root_probability = 2`, one root node, forward construction, backward
selection; returns the chosen immediate child's memory and its path score, or
`(None, 0)`. -/
def search (evalFn : EvalFn) (depth width : ℕ) (context : List HistEntry)
    (items : List Item) (decay_rate : ℚ) : Option Item × ℚ :=
  let t0 : BayesianTree := ⟨decay_rate, 2, [], none⟩
  let (_, t1) := t0.add_node none none none
  let (t2, _) := forward_construct_search_tree evalFn depth width context items t1
  let root := t2.root.getD 0
  let (best, score) := backward_get_best_candidate t2 root t2.nodes.length root
  match best with
  | some b => (t2.nodes[b]?.bind BTNode.memory, score)
  | none => (none, 0)

end BeamSearch

/-- Truncation toward zero, `int(x)` on a float value. -/
def ratTrunc (q : ℚ) : ℤ :=
  if 0 ≤ q then ⌊q⌋ else ⌈q⌉

namespace BSTPlayer

/-- Modelled from the spec: `ConversationScorer.evaluate_at_position`, invoked
at bst_player_presets.py:264 but absent from `src/players/player_3/utils.py`
(only its caller is in src).  Per the spec's "exponentially-weighted moving
average of recently realized scores (skipping pauses)", it returns the realized
score of the non-pause entry at position `i`: the scorer's `evaluate` of that
item against the non-pause items spoken before it (the displaced inline
computation at bst_player_presets.py:262-263 that this call replaced). -/
def evaluate_at_position (preferences : List ℕ) (competition_rate : ℚ)
    (history : List HistEntry) (i : ℕ) : ℚ :=
  match history[i]?.bind id with
  | some item =>
    Scorer.evaluate preferences competition_rate item
      (((history.take i).filterMap id).map some)
  | none => 0

/-- `BayesianTreeBeamSearchPlayer.dynamic_threshold`
(bst_player_presets.py:233-278): discounted moving average of the realized
scores of the last `MAX_CONTEXT_LENGTH` turns (pauses skipped), blended with a
static baseline and clamped from above. -/
def dynamic_threshold (preferences : List ℕ) (competition_rate : ℚ)
    (history : List HistEntry)
    (discount_rate static_baseline blend_factor threshold_upper_bound : ℚ) : ℚ :=
  let maxContextLength : ℤ := if discount_rate ≠ 0 then ratTrunc (10 / discount_rate) else 100
  let t := history.length
  let start : ℕ := (max 0 ((t : ℤ) - maxContextLength)).toNat
  let idxs := List.range' start (t - start)
  let ema := idxs.foldl
    (fun (ema : Option ℚ) i =>
      match history[i]?.bind id with
      | none => ema
      | some _ =>
        let score := evaluate_at_position preferences competition_rate history i
        match ema with
        | none => some score
        | some e => some (discount_rate * score + (1 - discount_rate) * e))
    none
  let emaV := ema.getD static_baseline
  min (blend_factor * emaV + (1 - blend_factor) * static_baseline) threshold_upper_bound

/-- `dynamic_threshold` at its default arguments (discount 0.12, baseline 0.45,
blend 0.6, upper bound 0.6), as called from `propose_item`. -/
def dynamic_threshold_default (preferences : List ℕ) (competition_rate : ℚ)
    (history : List HistEntry) : ℚ :=
  dynamic_threshold preferences competition_rate history (12/100) (45/100) (6/10) (6/10)

/-- `BayesianTreeBeamSearchPlayer.propose_item` (bst_player_presets.py:282-313):
run the beam search over the memory bank with the real history as initial
context (`decay_rate=0.5`), then propose the returned item iff its path score
exceeds the static threshold when configured, else the dynamic threshold. -/
def propose_item (preferences : List ℕ) (memory_bank : List Item)
    (depth width : ℕ) (competition_rate : ℚ) (static_threhold : Option ℚ)
    (history : List HistEntry) : Option Item :=
  let evalFn : BeamSearch.EvalFn := fun item ctx =>
    Scorer.evaluate preferences competition_rate item ctx
  let result := BeamSearch.search evalFn depth width history memory_bank (1/2)
  let threhold := match static_threhold with
    | some th => th
    | none => dynamic_threshold_default preferences competition_rate history
  if result.2 > threhold then result.1 else none

end BSTPlayer

/-- Father link of the node at index `i` (none for the root, for detached
nodes and for invalid indices). -/
def BayesianTree.fatherOf (t : BayesianTree) (i : ℕ) : Option ℕ :=
  t.nodes[i]?.bind BTNode.father

/-- Child list of the node at index `i`. -/
def BayesianTree.childsOf (t : BayesianTree) (i : ℕ) : List ℕ :=
  (t.nodes[i]?.map BTNode.childs).getD []

/-- Memory of the node at index `i`. -/
def BayesianTree.memoryOf (t : BayesianTree) (i : ℕ) : Option Item :=
  t.nodes[i]?.bind BTNode.memory

/-- Reachability from the root along child links: the nodes that are still
part of the tree (a recursive walk from `tree.root` visits exactly these). -/
inductive BayesianTree.Reach (t : BayesianTree) : ℕ → Prop
  | root (r : ℕ) : t.root = some r → BayesianTree.Reach t r
  | child {j c : ℕ} : BayesianTree.Reach t j → c ∈ t.childsOf j → BayesianTree.Reach t c

/-- The indices reachable from the root in exactly `d` child steps: the nodes
"of depth `d`" that remain in the tree. -/
def BayesianTree.nodesAtDepth (t : BayesianTree) : ℕ → List ℕ
  | 0 => match t.root with | some r => [r] | none => []
  | d + 1 => ((BayesianTree.nodesAtDepth t d).map t.childsOf).flatten

/-! ## Concrete values used by counterexamples and witnesses -/

/-- Items with subjects `[0]`, `[1]`, `[0]`. -/
def itA : Item := ⟨1, 0, 1/2, [0]⟩

def itB : Item := ⟨2, 0, 1/2, [1]⟩

def itC : Item := ⟨3, 0, 1/2, [0]⟩

/-- A seed-derived stream pair that always yields 0. -/
def rng0 : Rng := ⟨fun _ => 0, fun _ => 0, 0⟩

/-- A uuid4 stream issuing 0, 1, 2, …. -/
def idg1 : IdGen := ⟨fun n => n, 0⟩

/-- A different uuid4 stream (same seed-derived `Rng`), issuing 100, 101, …. -/
def idg2 : IdGen := ⟨fun n => n + 100, 0⟩

/-- An agent class that always proposes the first item of its memory bank. -/
def headCtor : PlayerSnapshot → GameContext → Engine.Policy :=
  fun snap _ => fun _ => snap.memory_bank.head?

/-- An agent class that always passes. -/
def passCtor : PlayerSnapshot → GameContext → Engine.Policy :=
  fun _ _ => fun _ => none

/-- The scorer of a player with preferences `[0]` and competition rate 1/2. -/
def evalA : BeamSearch.EvalFn := fun it ctx => Scorer.evaluate [0] (1/2) it ctx

def itemA0 : Item := ⟨5, 7, 9/10, [0]⟩

/-- The fresh one-root tree `search` starts from (`root_probability = 2`,
`decay_rate = 1/2`, one parentless root node). -/
def t0c6 : BayesianTree :=
  Prod.snd ((⟨1/2, 2, [], none⟩ : BayesianTree).add_node none none none)

/-- The search tree built by `forward_construct_search_tree` for a beam of
width 1, depth 1, one memory item and empty history (the construction used by
`search` with `root_probability = 2`, `decay_rate = 1/2`). -/
def c6tree : BayesianTree :=
  (BeamSearch.forward_construct_search_tree evalA 1 1 [] [itemA0] t0c6).1

/-- The tree `expandAll` produces from `t0c6` with the single memory item
`itemA0`: the root keeps both the scored item child (index 1) and the pause
child (index 2); field values are left in the exact form `add_node`
computes them. -/
def c6t1 : BayesianTree :=
  ⟨1/2, 2,
   [⟨2, none, none, none, [1, 2]⟩,
    ⟨2 * (1/2), some itemA0, some (evalA itemA0 []), some 0, []⟩,
    ⟨2 * (1/2), none, some 0, some 0, []⟩],
   some 0⟩

/-- A one-level tree with two scored item children (indices 1, 2) and one
pause child (index 3) under the root: the concrete instance on which the
amended pruning invariant is witnessed. -/
def c6wt : BayesianTree :=
  ⟨1/2, 2,
   [⟨2, none, none, none, [1, 2, 3]⟩,
    ⟨1, some itemA0, some (9/20), some 0, []⟩,
    ⟨1, some itB, some (1/4), some 0, []⟩,
    ⟨1, none, some 0, some 0, []⟩],
   some 0⟩

/-- A three-node path root → item node (prior 1, score 2) → pause node
(prior 1/2, score 0), built through `add_node`. -/
def c7tree : BayesianTree :=
  let t0 : BayesianTree := ⟨1/2, 2, [], none⟩
  let (_, t1) := t0.add_node none none none
  let (_, t2) := t1.add_node (some 0) (some itemA0) (some 2)
  let (_, t3) := t2.add_node (some 1) none (some 0)
  t3

/-! ## Claim-side definitions

These follow the words of the spec/claims (not the source); each is compared
against the corresponding source-derived definition. -/

/-- Claim C1's reading of the individual score: only items spoken by the
player itself contribute the preference bonus. -/
def speakerOnlyIndividualScore (pid : ℕ) (preferences : List ℕ)
    (history : List HistEntry) : ℚ :=
  history.foldl
    (fun acc e =>
      match e with
      | none => acc
      | some item =>
        if item.player_id = pid then acc + Engine.itemBonus preferences item else acc)
    0

/-- Claim C3's reading of freshness: the window holds the up-to-6 non-pause
items immediately preceding the pause at `i-1`, never crossing an earlier
pause boundary. -/
def freshnessPerClaimC3 (history : List HistEntry) (i : ℕ) (item : Item) : ℚ :=
  if i = 0 then 0
  else if history[i-1]? ≠ some none then 0
  else
    let window := (takeUntilNone ((history.take (i-1)).reverse)).take 6
    let priorSubjects := subjectsOfItems window
    ((item.subjects.filter (fun s => decide (s ∉ priorSubjects))).length : ℚ)

/-- Claim C7's reading of the normalized path expectation: the sums range over
*all scored* ancestors (score present), so pause ancestors — whose score is
`0.0`, not `None` — contribute their prior probability to the denominator. -/
def expectationPerClaimC7 (t : BayesianTree) (endNode tail : ℕ) : ℚ :=
  let path := BeamSearch.tree_branch_to_list t endNode tail
  let scored := path.filterMap fun i =>
    t.nodes[i]?.bind fun n =>
      match n.score with
      | some s => some (n.prior_probability, s)
      | none => none
  let num := (scored.map fun p => p.1 * p.2).sum
  let den := (scored.map Prod.fst).sum
  if den = 0 then 0 else num / den

/-- Claim C8's reading of the moving average: an exponentially-weighted moving
average over a list of realized scores, seeded with the first score —
`ema := d·s + (1−d)·ema` per subsequent score — and `none` when the list is
empty. -/
def emaOfScores (discount : ℚ) : List ℚ → Option ℚ
  | [] => none
  | s :: rest => some (rest.foldl (fun e s2 => discount * s2 + (1 - discount) * e) s)

/-- Claim C8's reading of the inputs to the moving average: the realized
scores of the non-pause entries among the `maxContext` most recent history
positions, in order. -/
def recentRealizedScores (preferences : List ℕ) (competition_rate : ℚ)
    (history : List HistEntry) (maxContext : ℕ) : List ℚ :=
  ((List.range history.length).drop (history.length - maxContext)).filterMap fun i =>
    (history[i]?.bind id).map fun _ =>
      BSTPlayer.evaluate_at_position preferences competition_rate history i

/-- The non-pause scored ancestors on a path: prior/score pairs of the path
nodes carrying both a memory and a score. -/
def scoredAncestors (t : BayesianTree) (path : List ℕ) : List (ℚ × ℚ) :=
  path.filterMap fun i =>
    t.nodes[i]?.bind fun n =>
      match n.memory with
      | none => none
      | some _ =>
        match n.score with
        | none => none
        | some s => some (n.prior_probability, s)

/-! ## Theorems -/

theorem individual_fold_eq (preferences : List ℕ) (history : List HistEntry) (a : ℚ) :
    history.foldl
      (fun acc e => match e with
        | none => acc
        | some item => acc + Engine.itemBonus preferences item) a =
      a + ((history.filterMap id).map (Engine.itemBonus preferences)).sum := by
  induction history generalizing a with
  | nil => simp
  | cons e rest ih =>
    cases e with
    | none => simpa using ih a
    | some item => simp [ih, add_assoc]

/-- C1 counterexample: with preferences `[0,1]`, a history holding a single
item spoken by player 55 gives player 7 (who spoke nothing) individual score 1
under `Engine.__calculate_individual_score`, whereas the claim — the bonus is
credited only to the speaker, other players' items contribute nothing — gives
player 7 a score of 0. -/
theorem C1_counterexample :
    Engine.calculate_individual_score [0, 1] [some ⟨9, 55, 1/2, [0]⟩] = 1 ∧
    speakerOnlyIndividualScore 7 [0, 1] [some ⟨9, 55, 1/2, [0]⟩] = 0 ∧
    (1 : ℚ) ≠ 0 := by
  refine ⟨?_, ?_, by norm_num⟩
  · norm_num [Engine.calculate_individual_score, Engine.itemBonus, List.indexOf,
      List.findIdx, List.findIdx.go]
  · norm_num [speakerOnlyIndividualScore]

/-- C1 amended: each player's individual score equals the sum, over *all*
non-pause items of the final history regardless of who spoke them, of the
preference bonus (average over the item's subjects present in the ranking of
`1 - rank/|preferences|`) under that player's own ranking. -/
theorem C1_amended (preferences : List ℕ) (history : List HistEntry) :
    Engine.calculate_individual_score preferences history =
      ((history.filterMap id).map (Engine.itemBonus preferences)).sum := by
  unfold Engine.calculate_individual_score
  simpa using individual_fold_eq preferences history 0

/-- C3 counterexample: history `[itA, pause, itB, pause]` and a new item with
`itA`'s subject at position 4.  The claim's window ("up-to-6 non-pause items
immediately preceding the pause, never crossing an earlier pause boundary")
holds only `itB`, giving freshness 1; the code's window is the raw slice
`history[max(0,i-6):i-1]`, which crosses the earlier pause and still sees
`itA`, giving freshness 0. -/
theorem C3_counterexample :
    Engine.calculate_freshness_score [some itA, none, some itB, none] 4 itC = 0 ∧
    freshnessPerClaimC3 [some itA, none, some itB, none] 4 itC = 1 ∧
    (0 : ℚ) ≠ 1 := by
  refine ⟨?_, ?_, by norm_num⟩
  · norm_num [Engine.calculate_freshness_score, subjectsOfItems, itA, itB, itC]
    exact ⟨[0], Or.inl rfl, by norm_num⟩
  · norm_num [freshnessPerClaimC3, subjectsOfItems, takeUntilNone, itA, itB, itC]

/-- C3 amended: freshness is 0 unless the entry at `i-1` is a pause, and
otherwise counts the item's subjects that occur in none of the non-pause
entries among the five slots `i-6 … i-2` (clipped at index 0); pauses inside
that window are skipped but do not stop it. -/
theorem C3_amended (history : List HistEntry) (i : ℕ) (item : Item) :
    ((i = 0 ∨ history[i-1]? ≠ some none) →
      Engine.calculate_freshness_score history i item = 0) ∧
    (i ≠ 0 → history[i-1]? = some none →
      Engine.calculate_freshness_score history i item =
        ((item.subjects.filter fun s =>
          ((history.take (i-1)).drop (i-6)).all fun e =>
            match e with
            | some prev => decide (s ∉ prev.subjects)
            | none => true).length : ℚ)) := by
  constructor
  · rintro (h0 | hne)
    · simp [Engine.calculate_freshness_score, h0]
    · rw [Engine.calculate_freshness_score]
      rcases Nat.eq_zero_or_pos i with h0 | hpos
      · simp [h0]
      · rw [if_neg (Nat.pos_iff_ne_zero.mp hpos), if_pos hne]
  · intro hne hp
    rw [Engine.calculate_freshness_score, if_neg hne]
    rw [if_neg (by simp [hp])]
    dsimp only
    congr 1
    congr 1
    apply List.filter_congr
    intro s _
    have : (s ∈ subjectsOfItems (((history.take (i-1)).drop (i-6)).filterMap id)) ↔
        ∃ e ∈ (history.take (i-1)).drop (i-6), ∃ prev, e = some prev ∧ s ∈ prev.subjects := by
      simp only [subjectsOfItems, List.mem_flatten, List.mem_map, List.mem_filterMap,
        id_eq]
      constructor
      · rintro ⟨l, ⟨it, ⟨e, he, heq⟩, rfl⟩, hs⟩
        exact ⟨e, he, it, by cases e <;> simp_all, hs⟩
      · rintro ⟨e, he, prev, rfl, hs⟩
        exact ⟨prev.subjects, ⟨prev, ⟨some prev, he, rfl⟩, rfl⟩, hs⟩
    rw [Bool.eq_iff_iff]
    simp only [decide_eq_true_eq, List.all_eq_true, this]
    constructor
    · intro hnot e he
      cases e with
      | none => simp
      | some prev =>
        simp only [decide_eq_true_eq]
        intro hs
        exact hnot ⟨some prev, he, prev, rfl, hs⟩
    · rintro hall ⟨e, he, prev, rfl, hs⟩
      have := hall _ he
      simp only [decide_eq_true_eq] at this
      exact this hs

/-- C3 amended, witness: at `i = 2` after a pause, with only `itB` (subject 1)
in the window and a new item with subject 0, freshness is 1. -/
theorem C3_amended_witness :
    Engine.calculate_freshness_score [some itB, none] 2 itC = 1 := by
  have h := (C3_amended [some itB, none] 2 itC).2 (by decide) (by decide)
  rw [h]
  decide

/-- C5 counterexample: same agent class (`headCtor`), same configuration and
the same seed-derived PRNG streams (`rng0`), but the uuid4 source — which
`random.seed` does not control — differs between the two runs (`idg1` vs
`idg2`); the two full histories differ (the items carry different uuids), so
the seed alone does not determine the full history. -/
theorem C5_counterexample :
    (Engine.engineRun [headCtor] 1 1 2 rng0 idg1).1.history ≠
      (Engine.engineRun [headCtor] 1 1 2 rng0 idg2).1.history := by
  norm_num [Engine.engineRun, Engine.makeSnapshots, Engine.makeSnapshot,
    Engine.generateItems, Engine.generateItem, sampleDraw, round2, rng0, idg1, idg2,
    headCtor, Rng.nextFloat, IdGen.fresh, Engine.runLoop, Engine.turnStep,
    Engine.getProposals, Engine.selectSpeaker, Engine.selectByFairness,
    Engine.contribOf, Engine.addContrib, Rng.choice]

/-- C5 amended: the run is a pure function of the seed-derived PRNG streams,
the uuid4 stream, the configuration and the agent classes — two runs agreeing
on *all* of these (in particular on the uuid stream, which the seed does not
fix) produce identical full histories and identical final scores. -/
theorem C5_amended (ctors : List (PlayerSnapshot → GameContext → Engine.Policy))
    (subjects_count memory_size conversation_length : ℕ)
    (r1 r2 : Rng) (g1 g2 : IdGen) (hr : r1 = r2) (hg : g1 = g2) :
    (Engine.engineRun ctors subjects_count memory_size conversation_length r1 g1).1.history =
      (Engine.engineRun ctors subjects_count memory_size conversation_length r2 g2).1.history ∧
    Engine.engineRunScores ctors subjects_count memory_size conversation_length r1 g1 =
      Engine.engineRunScores ctors subjects_count memory_size conversation_length r2 g2 := by
  subst hr
  subst hg
  exact ⟨rfl, rfl⟩

/-- C5 amended, witness at a concrete configuration and concrete streams. -/
theorem C5_amended_witness :
    (Engine.engineRun [headCtor] 1 1 2 rng0 idg1).1.history =
      (Engine.engineRun [headCtor] 1 1 2 rng0 idg1).1.history ∧
    Engine.engineRunScores [headCtor] 1 1 2 rng0 idg1 =
      Engine.engineRunScores [headCtor] 1 1 2 rng0 idg1 :=
  C5_amended [headCtor] 1 1 2 rng0 rng0 idg1 idg1 rfl rfl

theorem expectation_foldl (t : BayesianTree) (l : List ℕ) :
    ∀ a b : ℚ,
      l.foldl
        (fun (acc : ℚ × ℚ) i =>
          match t.nodes[i]? with
          | none => acc
          | some n =>
            match n.memory with
            | none => acc
            | some _ =>
              match n.score with
              | none => acc
              | some s => (acc.1 + n.prior_probability * s, acc.2 + n.prior_probability))
        (a, b) =
      (a + ((scoredAncestors t l).map fun p => p.1 * p.2).sum,
        b + ((scoredAncestors t l).map Prod.fst).sum) := by
  induction l with
  | nil => intro a b; simp [scoredAncestors]
  | cons i rest ih =>
    intro a b
    rw [List.foldl_cons]
    rcases hn : t.nodes[i]? with _ | n
    · simp only [hn, scoredAncestors, List.filterMap_cons, Option.none_bind]
      exact ih a b
    · rcases hm : n.memory with _ | m
      · simp only [hn, hm, scoredAncestors, List.filterMap_cons, Option.some_bind]
        exact ih a b
      · rcases hs : n.score with _ | s
        · simp only [hn, hm, hs, scoredAncestors, List.filterMap_cons, Option.some_bind]
          exact ih a b
        · simp only [hn, hm, hs, scoredAncestors, List.filterMap_cons, Option.some_bind,
            List.map_cons, List.sum_cons]
          rw [ih]
          simp [scoredAncestors, add_assoc]

/-- C7 counterexample: on the path root → item node (prior 1, score 2) →
pause node (prior 1/2, score 0.0), the code's normalized expectation of the
pause node skips the pause entirely and yields 2, whereas the claim's formula
— sums over all scored ancestors, and a pause child is scored (score 0) —
yields (1·2 + ½·0)/(1 + ½) = 4/3. -/
theorem C7_counterexample :
    BeamSearch.compute_normalized_expectation c7tree 2 0 = 2 ∧
    expectationPerClaimC7 c7tree 2 0 = 4/3 ∧
    (2 : ℚ) ≠ 4/3 := by
  refine ⟨?_, ?_, by norm_num⟩
  · norm_num [BeamSearch.compute_normalized_expectation, BeamSearch.tree_branch_to_list,
      BeamSearch.branchWalk, c7tree, BayesianTree.add_node,
      BayesianTree.get_child_probability, BayesianTree.modifyNode, itemA0]
  · norm_num [expectationPerClaimC7, BeamSearch.tree_branch_to_list,
      BeamSearch.branchWalk, c7tree, BayesianTree.add_node,
      BayesianTree.get_child_probability, BayesianTree.modifyNode, itemA0,
      List.filterMap_cons]

/-- C7 amended: the normalized path expectation equals
`Σ prior·score / Σ prior` over the *non-pause* scored ancestors on the root
path (root excluded) — pause ancestors are skipped in numerator *and*
denominator — and is 0 when no such ancestor exists; pause children still
occupy beam slots: the per-level selection keeps exactly `min W #candidates`
candidates with pause candidates counted like any others. -/
theorem C7_amended (t : BayesianTree) (endNode tail : ℕ) :
    (BeamSearch.compute_normalized_expectation t endNode tail =
      (if ((scoredAncestors t (BeamSearch.tree_branch_to_list t endNode tail)).map
            Prod.fst).sum = 0 then 0
       else ((scoredAncestors t (BeamSearch.tree_branch_to_list t endNode tail)).map
              fun p => p.1 * p.2).sum /
            ((scoredAncestors t (BeamSearch.tree_branch_to_list t endNode tail)).map
              Prod.fst).sum)) ∧
    (∀ (width : ℕ) (cands : List ℕ) (startN : ℕ),
      (BeamSearch.find_top_nodes t width cands startN).length = min width cands.length) := by
  constructor
  · rw [BeamSearch.compute_normalized_expectation]
    rw [expectation_foldl]
    simp
  · intro width cands startN
    rw [BeamSearch.find_top_nodes]
    rw [List.length_map, List.length_take]
    congr 1
    rw [(List.perm_insertionSort _ _).length_eq, List.length_map]

theorem calculate_scores_upto_succ (history : List HistEntry) (n : ℕ) :
    Engine.calculate_scores_upto history (n + 1) =
      Engine.scoresStep history (Engine.calculate_scores_upto history n) n := by
  rw [Engine.calculate_scores_upto, List.range_succ, List.foldl_append, List.foldl_cons,
    List.foldl_nil, Engine.calculate_scores_upto]

theorem mem_uniqueIds (history : List HistEntry) :
    ∀ (n : ℕ) (x : ℕ),
      x ∈ (Engine.calculate_scores_upto history n).uniqueIds ↔
        ∃ k, k < n ∧ ∃ it, history[k]? = some (some it) ∧ it.id = x := by
  intro n
  induction n with
  | zero =>
    intro x
    simp [Engine.calculate_scores_upto, Engine.ScoreAcc.init]
  | succ n ih =>
    intro x
    rw [calculate_scores_upto_succ, Engine.scoresStep]
    rcases hn : history[n]? with _ | e
    · simp only [hn]
      rw [ih x]
      constructor
      · rintro ⟨k, hk, it, hit, hid⟩
        exact ⟨k, by omega, it, hit, hid⟩
      · rintro ⟨k, hk, it, hit, hid⟩
        rcases Nat.lt_succ_iff_lt_or_eq.mp hk with hk' | rfl
        · exact ⟨k, hk', it, hit, hid⟩
        · rw [hn] at hit
          cases hit
    · cases e with
      | none =>
        simp only [hn]
        rw [ih x]
        constructor
        · rintro ⟨k, hk, it, hit, hid⟩
          exact ⟨k, by omega, it, hit, hid⟩
        · rintro ⟨k, hk, it, hit, hid⟩
          rcases Nat.lt_succ_iff_lt_or_eq.mp hk with hk' | rfl
          · exact ⟨k, hk', it, hit, hid⟩
          · rw [hn] at hit
            cases hit
      | some it0 =>
        simp only [hn]
        cases hc : (Engine.calculate_scores_upto history n).uniqueIds.contains it0.id with
        | true =>
          rw [if_pos rfl]
          dsimp only
          rw [ih x]
          constructor
          · rintro ⟨k, hk, it, hit, hid⟩
            exact ⟨k, by omega, it, hit, hid⟩
          · rintro ⟨k, hk, it, hit, hid⟩
            rcases Nat.lt_succ_iff_lt_or_eq.mp hk with hk' | rfl
            · exact ⟨k, hk', it, hit, hid⟩
            · rw [hn] at hit
              injection hit with h1
              injection h1 with h2
              have hm := (ih it0.id).mp (List.mem_of_elem_eq_true hc)
              rw [h2, hid] at hm
              exact hm
        | false =>
          rw [if_neg (by simp)]
          dsimp only
          rw [List.mem_append, List.mem_singleton, ih x]
          constructor
          · rintro (⟨k, hk, it, hit, hid⟩ | rfl)
            · exact ⟨k, by omega, it, hit, hid⟩
            · exact ⟨n, by omega, it0, hn, rfl⟩
          · rintro ⟨k, hk, it, hit, hid⟩
            rcases Nat.lt_succ_iff_lt_or_eq.mp hk with hk' | rfl
            · exact Or.inl ⟨k, hk', it, hit, hid⟩
            · rw [hn] at hit
              injection hit with h1
              injection h1 with h2
              subst h2
              exact Or.inr hid.symm

/-- C9: a repeated occurrence (same id occurred at an earlier position)
contributes importance 0, coherence 0, freshness 0 and nonmonotonousness −1 —
processing position `j` of `Engine.__calculate_scores` leaves the importance,
coherence and freshness accumulators unchanged and decrements the
nonmonotonousness accumulator (hence the shared total) by exactly 1. -/
theorem C9_repeated_contribution (history : List HistEntry) (j : ℕ) (item : Item)
    (hj : history[j]? = some (some item))
    (hrep : ∃ k, k < j ∧ ∃ it, history[k]? = some (some it) ∧ it.id = item.id) :
    (Engine.calculate_scores_upto history (j+1)).importance =
        (Engine.calculate_scores_upto history j).importance ∧
    (Engine.calculate_scores_upto history (j+1)).coherence =
        (Engine.calculate_scores_upto history j).coherence ∧
    (Engine.calculate_scores_upto history (j+1)).freshness =
        (Engine.calculate_scores_upto history j).freshness ∧
    (Engine.calculate_scores_upto history (j+1)).nonmonotonousness =
        (Engine.calculate_scores_upto history j).nonmonotonousness - 1 ∧
    (Engine.calculate_scores_upto history (j+1)).shared =
        (Engine.calculate_scores_upto history j).shared - 1 := by
  have hc : (Engine.calculate_scores_upto history j).uniqueIds.contains item.id = true :=
    List.elem_eq_true_of_mem ((mem_uniqueIds history j item.id).mpr hrep)
  rw [calculate_scores_upto_succ, Engine.scoresStep]
  simp only [hj]
  rw [if_pos hc]
  refine ⟨rfl, rfl, rfl, ?_, ?_⟩
  · dsimp only
    rw [Engine.calculate_nonmonotonousness_score, if_pos rfl]
    ring
  · dsimp only [Engine.ScoreAcc.shared]
    rw [Engine.calculate_nonmonotonousness_score, if_pos rfl]
    ring

/-- C9 witness: the immediate repetition `[itA, itA]` — position 1 changes only
the nonmonotonousness accumulator, by −1. -/
theorem C9_witness :
    (Engine.calculate_scores_upto [some itA, some itA] 2).nonmonotonousness =
      (Engine.calculate_scores_upto [some itA, some itA] 1).nonmonotonousness - 1 :=
  (C9_repeated_contribution [some itA, some itA] 1 itA rfl
    ⟨0, by omega, itA, rfl, rfl⟩).2.2.2.1

theorem mem_zipWith_exists {α β γ : Type} {f : α → β → γ} :
    ∀ {l1 : List α} {l2 : List β} {c : γ},
      c ∈ List.zipWith f l1 l2 → ∃ a ∈ l1, ∃ b ∈ l2, c = f a b := by
  intro l1
  induction l1 with
  | nil => intro l2 c h; simp at h
  | cons a t ih =>
    intro l2 c h
    cases l2 with
    | nil => simp at h
    | cons b t2 =>
      rw [List.zipWith_cons_cons] at h
      rcases List.mem_cons.mp h with rfl | h'
      · exact ⟨a, by simp, b, by simp, rfl⟩
      · rcases ih h' with ⟨a', ha, b', hb, rfl⟩
        exact ⟨a', by simp [ha], b', by simp [hb], rfl⟩

theorem getProposals_aux (h : List HistEntry) :
    ∀ (players : List (PlayerSnapshot × Engine.Policy)) (acc : List (ℕ × Item)),
      (∀ p ∈ players, p.2 h = none) →
      players.foldl
        (fun acc p =>
          match p.2 h with
          | some it => if p.1.memory_bank.contains it then acc ++ [(p.1.id, it)] else acc
          | none => acc) acc = acc := by
  intro players
  induction players with
  | nil => intro acc _; rfl
  | cons p rest ih =>
    intro acc hpass
    simp only [List.foldl_cons, hpass p (List.mem_cons_self p rest)]
    exact ih acc fun q hq => hpass q (List.mem_cons_of_mem p hq)

theorem getProposals_pass (players : List (PlayerSnapshot × Engine.Policy))
    (h : List HistEntry) (hpass : ∀ p ∈ players, p.2 h = none) :
    Engine.getProposals players h = [] :=
  getProposals_aux h players [] hpass

theorem turnStep_pass (players : List (PlayerSnapshot × Engine.Policy))
    (st : Engine.EngineState) (r : Rng)
    (hpass : ∀ p ∈ players, p.2 st.history = none) :
    Engine.turnStep players st r =
      ({ history := st.history ++ [none]
         last_player_id := none
         turn := st.turn + 1
         consecutive_pauses := st.consecutive_pauses + 1
         player_contributions := st.player_contributions }, r) := by
  rw [Engine.turnStep]
  simp [getProposals_pass players st.history hpass, Engine.selectSpeaker]

theorem runLoop_step_continue (players : List (PlayerSnapshot × Engine.Policy)) (L : ℕ)
    (hpassP : ∀ p ∈ players, ∀ h, p.2 h = none) (st : Engine.EngineState) (r : Rng)
    (fuel : ℕ) (hturn : st.turn < L) (hn : st.consecutive_pauses + 1 < 3) :
    Engine.runLoop players L (fuel + 1) st r =
      Engine.runLoop players L fuel
        { history := st.history ++ [none]
          last_player_id := none
          turn := st.turn + 1
          consecutive_pauses := st.consecutive_pauses + 1
          player_contributions := st.player_contributions } r := by
  have hstep := turnStep_pass players st r fun p hp => hpassP p hp st.history
  simp only [Engine.runLoop]
  rw [if_pos hturn, hstep]
  dsimp only
  rw [if_neg (by omega)]

theorem runLoop_step_stop (players : List (PlayerSnapshot × Engine.Policy)) (L : ℕ)
    (hpassP : ∀ p ∈ players, ∀ h, p.2 h = none) (st : Engine.EngineState) (r : Rng)
    (fuel : ℕ) (hturn : st.turn < L) (hy : 3 ≤ st.consecutive_pauses + 1) :
    Engine.runLoop players L (fuel + 1) st r =
      ({ history := st.history ++ [none]
         last_player_id := none
         turn := st.turn + 1
         consecutive_pauses := st.consecutive_pauses + 1
         player_contributions := st.player_contributions }, r) := by
  have hstep := turnStep_pass players st r fun p hp => hpassP p hp st.history
  simp only [Engine.runLoop]
  rw [if_pos hturn, hstep]
  dsimp only
  rw [if_pos (by omega)]

theorem runLoop_pass3 (players : List (PlayerSnapshot × Engine.Policy)) (L : ℕ)
    (hpassP : ∀ p ∈ players, ∀ h, p.2 h = none) (st : Engine.EngineState) (r : Rng)
    (fuel : ℕ) (h0 : st.consecutive_pauses = 0) (hle : st.turn + 3 ≤ L)
    (hfuel : 3 ≤ fuel) :
    Engine.runLoop players L fuel st r =
      ({ history := st.history ++ [none, none, none]
         last_player_id := none
         turn := st.turn + 3
         consecutive_pauses := 3
         player_contributions := st.player_contributions }, r) := by
  obtain ⟨f3, rfl⟩ : ∃ f3, fuel = f3 + 1 + 1 + 1 := ⟨fuel - 3, by omega⟩
  rw [runLoop_step_continue players L hpassP st r _ (by omega) (by omega)]
  rw [runLoop_step_continue players L hpassP _ r _
    (by show st.turn + 1 < L; omega) (by show st.consecutive_pauses + 1 + 1 < 3; omega)]
  rw [runLoop_step_stop players L hpassP _ r f3
    (by show st.turn + 1 + 1 < L; omega)
    (by show 3 ≤ st.consecutive_pauses + 1 + 1 + 1; omega)]
  dsimp only
  rw [Prod.mk.injEq]
  refine ⟨?_, rfl⟩
  rw [Engine.EngineState.mk.injEq]
  refine ⟨by simp, rfl, rfl, by omega, rfl⟩

/-- C10: with every agent always passing and `conversation_length > 3`, the
run stops after exactly 3 turns with a history of exactly 3 pauses. -/
theorem C10_all_pass (ctors : List (PlayerSnapshot → GameContext → Engine.Policy))
    (subjects_count memory_size conversation_length : ℕ) (r : Rng) (g : IdGen)
    (hL : 3 < conversation_length)
    (hpass : ∀ c ∈ ctors, ∀ snap ctx h, c snap ctx h = none) :
    (Engine.engineRun ctors subjects_count memory_size conversation_length r g).1.history =
      [none, none, none] ∧
    (Engine.engineRun ctors subjects_count memory_size conversation_length r g).1.turn = 3 := by
  have hplayers : ∀ p ∈ List.zipWith
        (fun (s : PlayerSnapshot) (c : PlayerSnapshot → GameContext → Engine.Policy) =>
          (s, c s (⟨ctors.length, conversation_length⟩ : GameContext)))
        (Engine.makeSnapshots (List.range subjects_count) memory_size ctors.length r g).1
        ctors,
      ∀ h : List HistEntry, p.2 h = none := by
    intro p hp h
    rcases mem_zipWith_exists hp with ⟨a, _, b, hb, rfl⟩
    exact hpass b hb a ⟨ctors.length, conversation_length⟩ h
  simp only [Engine.engineRun]
  rw [runLoop_pass3 _ conversation_length hplayers _ _ conversation_length rfl
    (by show (0:ℕ) + 3 ≤ conversation_length; omega) (by omega)]
  exact ⟨rfl, rfl⟩

theorem zip_sub_sum_zero (l : List ℚ) : ((l.zip l).map fun p => p.1 - p.2).sum = 0 := by
  induction l with
  | nil => simp
  | cons a rest ih => simp [ih]

theorem scorer_coherence_take (item : Item) (i : ℕ) (h1 h2 : List HistEntry)
    (htake : h1.take i = h2.take i) :
    Scorer.calculate_coherence_score item i h1 = Scorer.calculate_coherence_score item i h2 := by
  rw [Scorer.calculate_coherence_score, Scorer.calculate_coherence_score,
    Engine.pastContext, Engine.pastContext, htake]

/-- The retroactive coherence update of the scorer is identically 0: the
scorer's coherence is past-only, so appending the candidate never changes the
re-scored values. -/
theorem others_update_zero (item : Item) (history : List HistEntry) :
    Scorer.calculate_others_coherence_score_update item history.length history = 0 := by
  rw [Scorer.calculate_others_coherence_score_update]
  have hlt : ∀ i ∈ (List.range history.length).drop (history.length - 3),
      i < history.length := by
    intro i hi
    exact List.mem_range.mp (List.mem_of_mem_drop hi)
  have heq : ((List.range history.length).drop (history.length - 3)).filterMap
        (fun i => ((history ++ [some item])[i]?.bind id).map fun it =>
          Scorer.calculate_coherence_score it i (history ++ [some item])) =
      ((List.range history.length).drop (history.length - 3)).filterMap
        (fun i => (history[i]?.bind id).map fun it =>
          Scorer.calculate_coherence_score it i history) := by
    apply List.filterMap_congr
    intro i hi
    have hi' := hlt i hi
    rw [List.getElem?_append_left hi']
    rcases history[i]?.bind id with _ | it
    · rfl
    · dsimp only [Option.map]
      rw [scorer_coherence_take it i (history ++ [some item]) history
        (List.take_append_of_le_length (by omega))]
  rw [heq]
  exact zip_sub_sum_zero _

theorem coherence_at_end (history : List HistEntry) (item : Item) :
    Engine.calculate_coherence_score (history ++ [some item]) history.length item =
      Scorer.calculate_coherence_score item history.length history := by
  rw [Engine.calculate_coherence_score, Scorer.calculate_coherence_score]
  have hpast : Engine.pastContext (history ++ [some item]) history.length =
      Engine.pastContext history history.length := by
    rw [Engine.pastContext, Engine.pastContext,
      List.take_append_of_le_length (le_refl history.length)]
  have hfut : Engine.futureContext (history ++ [some item]) history.length = [] := by
    rw [Engine.futureContext]
    rw [show (history ++ [some item]).drop (history.length + 1) = [] by simp]
    rfl
  rw [hpast, hfut, List.append_nil]

theorem freshness_at_end (history : List HistEntry) (item : Item) :
    Engine.calculate_freshness_score (history ++ [some item]) history.length item =
      Scorer.calculate_freshness_score item history.length history := by
  rw [Engine.calculate_freshness_score, Scorer.calculate_freshness_score]
  rcases Nat.eq_zero_or_pos history.length with h0 | hpos
  · rw [h0]
    simp
  · rw [List.getElem?_append_left (by omega : history.length - 1 < history.length),
      List.take_append_of_le_length (by omega)]

theorem nonmono_at_end (history : List HistEntry) (item : Item) (rep : Bool) :
    Engine.calculate_nonmonotonousness_score (history ++ [some item]) history.length item rep =
      Scorer.calculate_nonmonotonousness_score item history.length history rep := by
  rw [Engine.calculate_nonmonotonousness_score, Scorer.calculate_nonmonotonousness_score]
  cases rep with
  | true => rfl
  | false =>
    rw [if_neg Bool.false_ne_true, if_neg Bool.false_ne_true]
    rcases Nat.lt_or_ge history.length 3 with h3 | h3
    · rw [if_pos h3, if_pos h3]
    · rw [if_neg (show ¬ history.length < 3 by omega),
        if_neg (show ¬ history.length < 3 by omega)]
      rw [List.getElem?_append_left (by omega : history.length - 3 < history.length),
        List.getElem?_append_left (by omega : history.length - 2 < history.length),
        List.getElem?_append_left (by omega : history.length - 1 < history.length)]

theorem isRepeated_at_end (history : List HistEntry) (item : Item) :
    Engine.isRepeatedIn (history ++ [some item]).dropLast item =
      Scorer.is_repeated item history := by
  rw [List.dropLast_concat]
  rfl

/-- C2: the agent-side scorer is in lock-step with the Engine.  For every item
and hypothetical history, `calculate_shared_score` equals the shared total the
Engine's `_calculate_turn_score_impact` assigns to that item appended at the
end of that history (the scorer's retroactive coherence update is identically
0 because its coherence is past-only), and `evaluate` returns
`competition_rate·individual + (1−competition_rate)·shared_total`. -/
theorem C2_scorer_lockstep (preferences : List ℕ) (competition_rate : ℚ)
    (item : Item) (history : List HistEntry) :
    Scorer.calculate_shared_score item history =
      (Engine.calculate_turn_score_impact (history ++ [some item]) item).total ∧
    Scorer.evaluate preferences competition_rate item history =
      competition_rate * Scorer.calculate_individual_score preferences item +
        (1 - competition_rate) *
          (Engine.calculate_turn_score_impact (history ++ [some item]) item).total := by
  have hshared : Scorer.calculate_shared_score item history =
      (Engine.calculate_turn_score_impact (history ++ [some item]) item).total := by
    rw [Engine.calculate_turn_score_impact]
    rw [show (history ++ [some item]).length - 1 = history.length by simp]
    rw [isRepeated_at_end]
    rw [Scorer.calculate_shared_score]
    cases hrep : Scorer.is_repeated item history with
    | true =>
      simp [Engine.TurnImpact.total, nonmono_at_end]
    | false =>
      simp [Engine.TurnImpact.total, nonmono_at_end, coherence_at_end, freshness_at_end,
        others_update_zero]
  exact ⟨hshared, by rw [Scorer.evaluate, hshared]⟩

/-- C4 counterexample: a 1-player game whose agent always proposes its single
memory item A and `conversation_length = 2`.  A is spoken at turn 0; at turn 1
the same — by then already-consumed — item A is proposed again, passes the
memory-bank-only filter of `__get_proposals`, is selected (the retain-floor
branch) and enters the history a second time.  An already-consumed proposal is
not downgraded to a pass. -/
theorem C4_counterexample :
    (Engine.engineRun [headCtor] 1 1 2 rng0 idg1).1.history =
      [some ⟨1, 0, 0, [0]⟩, some ⟨1, 0, 0, [0]⟩] := by
  norm_num [Engine.engineRun, Engine.makeSnapshots, Engine.makeSnapshot,
    Engine.generateItems, Engine.generateItem, sampleDraw, round2, rng0, idg1,
    headCtor, Rng.nextFloat, IdGen.fresh, Engine.runLoop, Engine.turnStep,
    Engine.getProposals, Engine.selectSpeaker, Engine.selectByFairness,
    Engine.contribOf, Engine.addContrib, Rng.choice]

theorem getProposals_eq_filterMap (players : List (PlayerSnapshot × Engine.Policy))
    (history : List HistEntry) :
    Engine.getProposals players history = players.filterMap fun p =>
      match p.2 history with
      | some it => if p.1.memory_bank.contains it then some (p.1.id, it) else none
      | none => none := by
  rw [Engine.getProposals]
  suffices H : ∀ (ps : List (PlayerSnapshot × Engine.Policy)) (acc : List (ℕ × Item)),
      ps.foldl
        (fun acc p =>
          match p.2 history with
          | some it => if p.1.memory_bank.contains it then acc ++ [(p.1.id, it)] else acc
          | none => acc) acc =
        acc ++ ps.filterMap (fun p =>
          match p.2 history with
          | some it => if p.1.memory_bank.contains it then some (p.1.id, it) else none
          | none => none) by
    simpa using H players []
  intro ps
  induction ps with
  | nil => intro acc; simp
  | cons p rest ih =>
    intro acc
    rw [List.foldl_cons, List.filterMap_cons]
    rcases hq : p.2 history with _ | it
    · simp only [hq]
      exact ih acc
    · simp only [hq]
      by_cases hc : p.1.memory_bank.contains it
      · rw [if_pos hc, if_pos hc, ih (acc ++ [(p.1.id, it)])]
        simp
      · rw [if_neg hc, if_neg hc]
        exact ih acc

theorem selectByFairness_mem (proposals : List (ℕ × Item))
    (contribs : List (ℕ × List Item)) (r : Rng) :
    (Engine.selectByFairness proposals contribs r).1 = none ∨
    ∃ pi, (Engine.selectByFairness proposals contribs r).1 = some pi ∧ pi ∈ proposals := by
  rw [Engine.selectByFairness]
  dsimp only [Rng.choice]
  rcases hx : (proposals.filter fun p =>
      (Engine.contribOf contribs p.1).length ==
        ((proposals.map fun p => (Engine.contribOf contribs p.1).length).foldr min
          ((proposals.map fun p =>
            (Engine.contribOf contribs p.1).length).headD 0)))[(r.nats r.pos) %
      (proposals.filter fun p =>
        (Engine.contribOf contribs p.1).length ==
          ((proposals.map fun p => (Engine.contribOf contribs p.1).length).foldr min
            ((proposals.map fun p =>
              (Engine.contribOf contribs p.1).length).headD 0))).length]? with _ | x
  · left
    rfl
  · right
    exact ⟨x, rfl, List.mem_of_mem_filter (List.getElem?_mem hx)⟩

theorem selectSpeaker_mem (proposals : List (ℕ × Item)) (last_player_id : Option ℕ)
    (contribs : List (ℕ × List Item)) (r : Rng) :
    (Engine.selectSpeaker proposals last_player_id contribs r).1 = none ∨
    ∃ pi, (Engine.selectSpeaker proposals last_player_id contribs r).1 = some pi ∧
      pi ∈ proposals := by
  rw [Engine.selectSpeaker]
  by_cases he : proposals.isEmpty
  · rw [if_pos he]
    left
    rfl
  · rw [if_neg he]
    dsimp only [Rng.nextFloat]
    rcases hlp : (last_player_id.bind fun lp =>
        (proposals.find? (fun p => p.1 == lp)).map fun p => (lp, p.2)) with _ | lpItem
    · rw [hlp]
      dsimp only
      exact selectByFairness_mem proposals contribs r
    · rw [hlp]
      dsimp only
      by_cases hf : r.floats r.pos < 1/2
      · rw [if_pos hf]
        right
        refine ⟨lpItem, rfl, ?_⟩
        rcases last_player_id with _ | lp
        · cases hlp
        · rw [Option.some_bind] at hlp
          rcases hfind : proposals.find? (fun p => p.1 == lp) with _ | p
          · rw [hfind] at hlp
            cases hlp
          · rw [hfind] at hlp
            dsimp only [Option.map] at hlp
            injection hlp with hlp1
            have hmem := List.mem_of_find?_eq_some hfind
            have hbeq := List.find?_some hfind
            have hid : p.1 = lp := eq_of_beq hbeq
            rw [← hlp1, ← hid]
            simpa using hmem
      · rw [if_neg hf]
        exact selectByFairness_mem proposals contribs _

theorem turnStep_appends (players : List (PlayerSnapshot × Engine.Policy))
    (st : Engine.EngineState) (r : Rng) :
    (Engine.turnStep players st r).1.history = st.history ++ [none] ∨
    ∃ pid item, (pid, item) ∈ Engine.getProposals players st.history ∧
      (Engine.turnStep players st r).1.history = st.history ++ [some item] := by
  rw [Engine.turnStep]
  rcases selectSpeaker_mem (Engine.getProposals players st.history) st.last_player_id
      st.player_contributions r with h | ⟨pi, hsel, hmem⟩
  · left
    rw [h]
  · right
    refine ⟨pi.1, pi.2, by simpa using hmem, ?_⟩
    rw [hsel]

/-- C4 amended: a proposal is kept iff the agent returned it (non-`None`) and
it lies in that agent's own memory bank — there is no already-consumed check —
and every turn appends either a pause or an item from that filtered proposal
set (so unowned proposals never enter the history, while consumed-but-owned
proposals remain eligible and enter the history as repeats, as the
counterexample shows; no exception is involved, every transition is total). -/
theorem C4_amended :
    (∀ (players : List (PlayerSnapshot × Engine.Policy)) (history : List HistEntry)
        (pid : ℕ) (item : Item),
      (pid, item) ∈ Engine.getProposals players history ↔
        ∃ p ∈ players, p.1.id = pid ∧ p.2 history = some item ∧
          p.1.memory_bank.contains item = true) ∧
    (∀ (players : List (PlayerSnapshot × Engine.Policy)) (st : Engine.EngineState) (r : Rng),
      (Engine.turnStep players st r).1.history = st.history ++ [none] ∨
      ∃ pid item, (pid, item) ∈ Engine.getProposals players st.history ∧
        (Engine.turnStep players st r).1.history = st.history ++ [some item]) := by
  constructor
  · intro players history pid item
    rw [getProposals_eq_filterMap, List.mem_filterMap]
    constructor
    · rintro ⟨p, hp, hf⟩
      refine ⟨p, hp, ?_⟩
      rcases hq : p.2 history with _ | it
      · rw [hq] at hf
        cases hf
      · rw [hq] at hf
        dsimp only at hf
        by_cases hc : p.1.memory_bank.contains it
        · rw [if_pos hc] at hf
          injection hf with hf1
          rw [Prod.mk.injEq] at hf1
          rcases hf1 with ⟨hf2, hf3⟩
          subst hf3
          exact ⟨hf2, rfl, hc⟩
        · rw [if_neg hc] at hf
          cases hf
    · rintro ⟨p, hp, hid, hprop, hmem⟩
      refine ⟨p, hp, ?_⟩
      rw [hprop]
      dsimp only
      rw [if_pos hmem, hid]
  · exact turnStep_appends

/-- C10 witness at a concrete configuration. -/
theorem C10_witness :
    (Engine.engineRun [passCtor] 1 1 7 rng0 idg1).1.history = [none, none, none] ∧
    (Engine.engineRun [passCtor] 1 1 7 rng0 idg1).1.turn = 3 :=
  C10_all_pass [passCtor] 1 1 7 rng0 idg1 (by omega)
    (by intro c hc snap ctx h; simp only [List.mem_singleton] at hc; subst hc; rfl)

theorem range_drop (m t : ℕ) : (List.range t).drop m = List.range' m (t - m) := by
  apply List.ext_getElem?
  intro i
  rw [List.getElem?_drop]
  rcases Nat.lt_or_ge i (t - m) with h | h
  · rw [List.getElem?_range (by omega), List.getElem?_range' _ _ h]
    simp
  · rw [List.getElem?_eq_none (by simp; omega),
      List.getElem?_eq_none (by rw [List.length_range']; omega)]

theorem ema_fold_some (preferences : List ℕ) (competition_rate d : ℚ)
    (history : List HistEntry) :
    ∀ (idxs : List ℕ) (e : ℚ),
      idxs.foldl
        (fun (ema : Option ℚ) i =>
          match history[i]?.bind id with
          | none => ema
          | some _ =>
            let score := BSTPlayer.evaluate_at_position preferences competition_rate history i
            match ema with
            | none => some score
            | some e => some (d * score + (1 - d) * e))
        (some e) =
      some ((idxs.filterMap fun i =>
          (history[i]?.bind id).map fun _ =>
            BSTPlayer.evaluate_at_position preferences competition_rate history i).foldl
        (fun e0 s => d * s + (1 - d) * e0) e) := by
  intro idxs
  induction idxs with
  | nil => intro e; simp
  | cons i rest ih =>
    intro e
    rw [List.foldl_cons, List.filterMap_cons]
    rcases hi : history[i]?.bind id with _ | it
    · simp only [hi]
      exact ih e
    · simp only [hi, Option.map_some']
      rw [List.foldl_cons]
      exact ih _

theorem ema_fold_none (preferences : List ℕ) (competition_rate d : ℚ)
    (history : List HistEntry) (idxs : List ℕ) :
    idxs.foldl
      (fun (ema : Option ℚ) i =>
        match history[i]?.bind id with
        | none => ema
        | some _ =>
          let score := BSTPlayer.evaluate_at_position preferences competition_rate history i
          match ema with
          | none => some score
          | some e => some (d * score + (1 - d) * e))
      none =
    emaOfScores d (idxs.filterMap fun i =>
      (history[i]?.bind id).map fun _ =>
        BSTPlayer.evaluate_at_position preferences competition_rate history i) := by
  induction idxs with
  | nil => rfl
  | cons i rest ih =>
    rw [List.foldl_cons, List.filterMap_cons]
    rcases hi : history[i]?.bind id with _ | it
    · simp only [hi]
      exact ih
    · simp only [hi, Option.map_some']
      rw [emaOfScores, ema_fold_some]

theorem childsOf_of_ge (t : BayesianTree) (j : ℕ) (h : t.nodes.length ≤ j) :
    t.childsOf j = [] := by
  rw [BayesianTree.childsOf, List.getElem?_eq_none h]
  rfl

theorem modifyNode_getElem (t : BayesianTree) (i : ℕ) (f : BTNode → BTNode) (j : ℕ) :
    (t.modifyNode i f).nodes[j]? =
      if j = i then (t.nodes[j]?).map f else t.nodes[j]? := by
  rw [BayesianTree.modifyNode]
  rcases hn : t.nodes[i]? with _ | n
  · by_cases hji : j = i
    · subst hji
      simp [hn]
    · simp [hji]
  · obtain ⟨hlt, -⟩ := List.getElem?_eq_some.mp hn
    dsimp only
    rw [List.getElem?_set]
    by_cases hji : j = i
    · subst hji
      rw [if_pos rfl, if_pos hlt, hn, Option.map_some']
      simp
    · rw [if_neg (fun he => hji he.symm), if_neg hji]

theorem modifyNode_length (t : BayesianTree) (i : ℕ) (f : BTNode → BTNode) :
    (t.modifyNode i f).nodes.length = t.nodes.length := by
  rw [BayesianTree.modifyNode]
  rcases hn : t.nodes[i]? with _ | n <;> simp [hn]

theorem modifyNode_root (t : BayesianTree) (i : ℕ) (f : BTNode → BTNode) :
    (t.modifyNode i f).root = t.root := by
  rw [BayesianTree.modifyNode]

theorem remove_node_getElem (t : BayesianTree) (c : ℕ) (nc : BTNode) (f : ℕ)
    (hc : t.nodes[c]? = some nc) (hfa : nc.father = some f) (hne : f ≠ c) (j : ℕ) :
    (t.remove_node c).nodes[j]? =
      if j = c then (t.nodes[j]?).map (fun nn => { nn with father := none })
      else if j = f then
        (t.nodes[j]?).map (fun fn => { fn with childs := fn.childs.erase c })
      else t.nodes[j]? := by
  rw [BayesianTree.remove_node]
  simp only [hc, hfa]
  rw [modifyNode_getElem, modifyNode_getElem]
  by_cases hjc : j = c
  · subst hjc
    rw [if_pos rfl, if_pos rfl, if_neg (fun h => hne h.symm)]
  · rw [if_neg hjc, if_neg hjc]

theorem remove_node_length (t : BayesianTree) (c : ℕ) :
    (t.remove_node c).nodes.length = t.nodes.length := by
  rw [BayesianTree.remove_node]
  rcases hc : t.nodes[c]? with _ | nc
  · rfl
  · dsimp only
    rcases hfa : nc.father with _ | f
    · rfl
    · dsimp only
      rw [modifyNode_length, modifyNode_length]

theorem remove_node_root (t : BayesianTree) (c : ℕ) :
    (t.remove_node c).root = t.root := by
  rw [BayesianTree.remove_node]
  rcases hc : t.nodes[c]? with _ | nc
  · rfl
  · dsimp only
    rcases hfa : nc.father with _ | f
    · rfl
    · dsimp only
      rw [modifyNode_root, modifyNode_root]

theorem remove_node_memoryOf (t : BayesianTree) (c : ℕ) (nc : BTNode) (f : ℕ)
    (hc : t.nodes[c]? = some nc) (hfa : nc.father = some f) (hne : f ≠ c) (j : ℕ) :
    (t.remove_node c).memoryOf j = t.memoryOf j := by
  rw [BayesianTree.memoryOf, BayesianTree.memoryOf,
    remove_node_getElem t c nc f hc hfa hne j]
  by_cases hjc : j = c
  · subst hjc
    rw [if_pos rfl]
    rcases hn : t.nodes[j]? with _ | n <;> simp [hn]
  · rw [if_neg hjc]
    by_cases hjf : j = f
    · rw [if_pos hjf]
      rcases hn : t.nodes[j]? with _ | n <;> simp [hn]
    · rw [if_neg hjf]

theorem remove_node_fatherOf_self (t : BayesianTree) (c : ℕ) (nc : BTNode) (f : ℕ)
    (hc : t.nodes[c]? = some nc) (hfa : nc.father = some f) (hne : f ≠ c) :
    (t.remove_node c).fatherOf c = none := by
  rw [BayesianTree.fatherOf, remove_node_getElem t c nc f hc hfa hne c, if_pos rfl, hc]
  rfl

theorem remove_node_fatherOf_other (t : BayesianTree) (c : ℕ) (nc : BTNode) (f : ℕ)
    (hc : t.nodes[c]? = some nc) (hfa : nc.father = some f) (hne : f ≠ c) (j : ℕ)
    (hjc : j ≠ c) :
    (t.remove_node c).fatherOf j = t.fatherOf j := by
  rw [BayesianTree.fatherOf, BayesianTree.fatherOf,
    remove_node_getElem t c nc f hc hfa hne j, if_neg hjc]
  by_cases hjf : j = f
  · rw [if_pos hjf]
    rcases hn : t.nodes[j]? with _ | n <;> simp [hn]
  · rw [if_neg hjf]

theorem remove_node_childsOf (t : BayesianTree) (c : ℕ) (nc : BTNode) (f : ℕ)
    (hc : t.nodes[c]? = some nc) (hfa : nc.father = some f) (hne : f ≠ c) (j : ℕ) :
    (t.remove_node c).childsOf j =
      if j = f then (t.childsOf j).erase c else t.childsOf j := by
  rw [BayesianTree.childsOf, BayesianTree.childsOf,
    remove_node_getElem t c nc f hc hfa hne j]
  by_cases hjc : j = c
  · subst hjc
    rw [if_pos rfl, if_neg (fun h => hne h.symm), hc]
    rfl
  · rw [if_neg hjc]
    by_cases hjf : j = f
    · rw [if_pos hjf, if_pos hjf]
      rcases hn : t.nodes[j]? with _ | n <;> simp [hn, BayesianTree.childsOf]
    · rw [if_neg hjf, if_neg hjf]

theorem prunning_of_leaf (t : BayesianTree) (c f : ℕ) (nc : BTNode) (fuel : ℕ)
    (hfuel : 2 ≤ fuel) (hc : t.nodes[c]? = some nc) (hleaf : nc.childs = [])
    (hfa : nc.father = some f) (hne : f ≠ c)
    (hkeep : ∃ p, p ∈ (t.childsOf f).erase c) :
    BayesianTree.leaf_branch_backward_prunning fuel t c = t.remove_node c := by
  obtain ⟨k, rfl⟩ : ∃ k, fuel = k + 1 + 1 := ⟨fuel - 2, by omega⟩
  obtain ⟨p, hp⟩ := hkeep
  have hfnode : ∃ nf, t.nodes[f]? = some nf := by
    rcases hn : t.nodes[f]? with _ | nf
    · rw [BayesianTree.childsOf, hn] at hp
      simp at hp
    · exact ⟨nf, rfl⟩
  obtain ⟨nf, hnf⟩ := hfnode
  have hchf : t.childsOf f = nf.childs := by
    rw [BayesianTree.childsOf, hnf]
    rfl
  rw [BayesianTree.leaf_branch_backward_prunning]
  simp only [hc]
  rw [if_pos (by rw [hleaf]; rfl)]
  simp only [hfa]
  rw [BayesianTree.leaf_branch_backward_prunning]
  have hremf : (t.remove_node c).nodes[f]? =
      some { nf with childs := nf.childs.erase c } := by
    rw [remove_node_getElem t c nc f hc hfa hne f, if_neg hne, if_pos rfl, hnf,
      Option.map_some']
  simp only [hremf]
  rw [if_neg ?hne2]
  case hne2 =>
    intro hemp
    rw [List.isEmpty_iff] at hemp
    rw [hchf] at hp
    rw [hemp] at hp
    simp at hp

theorem not_reach (t : BayesianTree) (c : ℕ) (hroot : ∀ r, t.root = some r → c ≠ r)
    (hnoin : ∀ j, c ∉ t.childsOf j) : ¬ t.Reach c := by
  intro h
  cases h with
  | root r hr => exact hroot c hr rfl
  | child hj hmem => exact hnoin _ hmem

theorem prune_fold (t1 : BayesianTree) (cands newLeaves : List ℕ)
    (hitem : ∀ c ∈ cands, (t1.memoryOf c).isSome = true →
      ∃ f, t1.fatherOf c = some f ∧
        ∃ p ∈ cands, p ≠ c ∧ t1.memoryOf p = none ∧ t1.fatherOf p = some f) :
    ∀ (rest : List ℕ), rest.Nodup → (∀ x ∈ rest, x ∈ cands) →
    ∀ (tt : BayesianTree),
      (∀ x, tt.memoryOf x = t1.memoryOf x) →
      (∀ j, (tt.childsOf j).Nodup) →
      (∀ j x, x ∈ tt.childsOf j → tt.fatherOf x = some j) →
      (∀ c ∈ cands, t1.memoryOf c = none →
        ∀ f, t1.fatherOf c = some f → c ∈ tt.childsOf f) →
      (∀ c ∈ rest, (t1.memoryOf c).isSome = true →
        tt.childsOf c = [] ∧ tt.fatherOf c = t1.fatherOf c ∧
        ∀ f, t1.fatherOf c = some f → c ∈ tt.childsOf f) →
      tt.root = t1.root →
      (∀ c ∈ rest, (t1.memoryOf c).isSome = true → newLeaves.contains c = false →
        (rest.foldl
          (fun tt c =>
            if ¬ newLeaves.contains c ∧ (tt.nodes[c]?.bind BTNode.memory).isSome then
              BayesianTree.leaf_branch_backward_prunning tt.nodes.length tt c
            else tt) tt).fatherOf c = none ∧
        ∀ j, c ∉ (rest.foldl
          (fun tt c =>
            if ¬ newLeaves.contains c ∧ (tt.nodes[c]?.bind BTNode.memory).isSome then
              BayesianTree.leaf_branch_backward_prunning tt.nodes.length tt c
            else tt) tt).childsOf j) ∧
      (∀ c ∈ cands, t1.memoryOf c = none →
        ∀ f, t1.fatherOf c = some f → c ∈ (rest.foldl
          (fun tt c =>
            if ¬ newLeaves.contains c ∧ (tt.nodes[c]?.bind BTNode.memory).isSome then
              BayesianTree.leaf_branch_backward_prunning tt.nodes.length tt c
            else tt) tt).childsOf f) ∧
      (rest.foldl
        (fun tt c =>
          if ¬ newLeaves.contains c ∧ (tt.nodes[c]?.bind BTNode.memory).isSome then
            BayesianTree.leaf_branch_backward_prunning tt.nodes.length tt c
          else tt) tt).root = t1.root ∧
      (∀ x, tt.fatherOf x = none → (∀ j, x ∉ tt.childsOf j) →
        (rest.foldl
          (fun tt c =>
            if ¬ newLeaves.contains c ∧ (tt.nodes[c]?.bind BTNode.memory).isSome then
              BayesianTree.leaf_branch_backward_prunning tt.nodes.length tt c
            else tt) tt).fatherOf x = none ∧
        ∀ j, x ∉ (rest.foldl
          (fun tt c =>
            if ¬ newLeaves.contains c ∧ (tt.nodes[c]?.bind BTNode.memory).isSome then
              BayesianTree.leaf_branch_backward_prunning tt.nodes.length tt c
            else tt) tt).childsOf j) := by
  intro rest
  induction rest with
  | nil =>
    intro _ _ tt _ _ _ hvi _ hroot
    refine ⟨?_, ?_, hroot, ?_⟩
    · intro c hc
      cases hc
    · intro c hc hm f hf
      exact hvi c hc hm f hf
    · intro x h1 h2
      exact ⟨h1, h2⟩
  | cons c rest ih =>
    intro hnodup hsub tt hii hiv hv hvi hvii hroot
    have hcnotin : c ∉ rest := (List.nodup_cons.mp hnodup).1
    have hnodup' : rest.Nodup := (List.nodup_cons.mp hnodup).2
    have hsub' : ∀ x ∈ rest, x ∈ cands := fun x hx => hsub x (List.mem_cons_of_mem c hx)
    rw [List.foldl_cons]
    by_cases hcond : ¬ newLeaves.contains c ∧ (tt.nodes[c]?.bind BTNode.memory).isSome
    · rw [if_pos hcond]
      -- gather the facts needed to reduce the prunning call to a single removal
      have hmem_t1 : (t1.memoryOf c).isSome = true := by
        have := hii c
        rw [BayesianTree.memoryOf] at this
        rw [← this]
        exact hcond.2
      have hcc : c ∈ cands := hsub c (List.mem_cons_self c rest)
      obtain ⟨hch, hfa_pres, hin⟩ := hvii c (List.mem_cons_self c rest) hmem_t1
      obtain ⟨f, hf, p, hpc, hpne, hpmem, hpf⟩ := hitem c hcc hmem_t1
      have hfc : tt.fatherOf c = some f := by rw [hfa_pres, hf]
      have hcin : c ∈ tt.childsOf f := hin f hf
      have hpin : p ∈ tt.childsOf f := hvi p hpc hpmem f hpf
      obtain ⟨nc, hn⟩ : ∃ nc, tt.nodes[c]? = some nc := by
        rcases hx : tt.nodes[c]? with _ | nc
        · rw [BayesianTree.fatherOf, hx] at hfc
          cases hfc
        · exact ⟨nc, rfl⟩
      have hncf : nc.father = some f := by
        rw [BayesianTree.fatherOf, hn] at hfc
        exact hfc
      have hncc : nc.childs = [] := by
        rw [BayesianTree.childsOf, hn] at hch
        exact hch
      have hne : f ≠ c := by
        intro h
        rw [h] at hcin
        rw [hch] at hcin
        cases hcin
      have hclt : c < tt.nodes.length := (List.getElem?_eq_some.mp hn).1
      have hflt : f < tt.nodes.length := by
        rcases hx : tt.nodes[f]? with _ | nf
        · rw [BayesianTree.childsOf, hx] at hcin
          cases hcin
        · exact (List.getElem?_eq_some.mp hx).1
      have hkeep : ∃ q, q ∈ (tt.childsOf f).erase c :=
        ⟨p, (List.mem_erase_of_ne hpne).mpr hpin⟩
      rw [prunning_of_leaf tt c f nc tt.nodes.length (by omega) hn hncc hncf hne hkeep]
      -- invariants for the removed tree
      have hm' : ∀ x, (tt.remove_node c).memoryOf x = t1.memoryOf x := fun x =>
        (remove_node_memoryOf tt c nc f hn hncf hne x).trans (hii x)
      have hch' : ∀ j, (tt.remove_node c).childsOf j =
          if j = f then (tt.childsOf j).erase c else tt.childsOf j :=
        remove_node_childsOf tt c nc f hn hncf hne
      have hiv' : ∀ j, ((tt.remove_node c).childsOf j).Nodup := by
        intro j
        rw [hch' j]
        by_cases hjf : j = f
        · rw [if_pos hjf]
          exact (hiv j).erase c
        · rw [if_neg hjf]
          exact hiv j
      have hsubchild : ∀ j x, x ∈ (tt.remove_node c).childsOf j →
          x ∈ tt.childsOf j ∧ x ≠ c := by
        intro j x hx
        rw [hch' j] at hx
        by_cases hjf : j = f
        · rw [if_pos hjf] at hx
          subst hjf
          have := (List.Nodup.mem_erase_iff (hiv j)).mp hx
          exact ⟨this.2, this.1⟩
        · rw [if_neg hjf] at hx
          refine ⟨hx, ?_⟩
          intro hxc
          subst hxc
          have := hv j x hx
          rw [hfc] at this
          injection this with h2
          exact hjf h2.symm
      have hv' : ∀ j x, x ∈ (tt.remove_node c).childsOf j →
          (tt.remove_node c).fatherOf x = some j := by
        intro j x hx
        obtain ⟨hx', hxc⟩ := hsubchild j x hx
        rw [remove_node_fatherOf_other tt c nc f hn hncf hne x hxc]
        exact hv j x hx'
      have hvi' : ∀ q ∈ cands, t1.memoryOf q = none →
          ∀ g, t1.fatherOf q = some g → q ∈ (tt.remove_node c).childsOf g := by
        intro q hq hqm g hg
        have hqc : q ≠ c := by
          intro h
          subst h
          rw [hqm] at hmem_t1
          cases hmem_t1
        have := hvi q hq hqm g hg
        rw [hch' g]
        by_cases hgf : g = f
        · rw [if_pos hgf]
          exact (List.mem_erase_of_ne hqc).mpr this
        · rw [if_neg hgf]
          exact this
      have hvii' : ∀ q ∈ rest, (t1.memoryOf q).isSome = true →
          (tt.remove_node c).childsOf q = [] ∧
          (tt.remove_node c).fatherOf q = t1.fatherOf q ∧
          ∀ g, t1.fatherOf q = some g → q ∈ (tt.remove_node c).childsOf g := by
        intro q hq hqm
        have hqc : q ≠ c := fun h => hcnotin (h ▸ hq)
        obtain ⟨hq1, hq2, hq3⟩ := hvii q (List.mem_cons_of_mem c hq) hqm
        have hqf : q ≠ f := by
          intro h
          subst h
          rw [hq1] at hpin
          cases hpin
        refine ⟨?_, ?_, ?_⟩
        · rw [hch' q, if_neg hqf]
          exact hq1
        · rw [remove_node_fatherOf_other tt c nc f hn hncf hne q hqc]
          exact hq2
        · intro g hg
          rw [hch' g]
          by_cases hgf : g = f
          · rw [if_pos hgf]
            exact (List.mem_erase_of_ne hqc).mpr (hq3 g hg)
          · rw [if_neg hgf]
            exact hq3 g hg
      have hroot' : (tt.remove_node c).root = t1.root := by
        rw [remove_node_root]
        exact hroot
      have hdetached : (tt.remove_node c).fatherOf c = none ∧
          ∀ j, c ∉ (tt.remove_node c).childsOf j := by
        refine ⟨remove_node_fatherOf_self tt c nc f hn hncf hne, ?_⟩
        intro j hj
        exact (hsubchild j c hj).2 rfl
      obtain ⟨ihA, ihB, ihC, ihE⟩ := ih hnodup' hsub' (tt.remove_node c) hm' hiv' hv'
        hvi' hvii' hroot'
      refine ⟨?_, ihB, ihC, ?_⟩
      · intro q hq hqm hqnl
        rcases List.mem_cons.mp hq with rfl | hq'
        · exact ihE q hdetached.1 hdetached.2
        · exact ihA q hq' hqm hqnl
      · intro x h1 h2
        have hxc : x ≠ c := by
          intro h
          subst h
          rw [hfc] at h1
          cases h1
        refine ihE x ?_ ?_
        · rw [remove_node_fatherOf_other tt c nc f hn hncf hne x hxc]
          exact h1
        · intro j hj
          exact h2 j (hsubchild j x hj).1
    · rw [if_neg hcond]
      have hvii'' : ∀ q ∈ rest, (t1.memoryOf q).isSome = true →
          tt.childsOf q = [] ∧ tt.fatherOf q = t1.fatherOf q ∧
          ∀ g, t1.fatherOf q = some g → q ∈ tt.childsOf g :=
        fun q hq => hvii q (List.mem_cons_of_mem c hq)
      obtain ⟨ihA, ihB, ihC, ihE⟩ := ih hnodup' hsub' tt hii hiv hv hvi hvii'' hroot
      refine ⟨?_, ihB, ihC, ihE⟩
      intro q hq hqm hqnl
      rcases List.mem_cons.mp hq with rfl | hq'
      · exfalso
        apply hcond
        constructor
        · rw [hqnl]
          simp
        · have := hii q
          rw [BayesianTree.memoryOf] at this
          rw [this]
          exact hqm
      · exact ihA q hq' hqm hqnl

/-- C6: counterexample — with beam width 1 and depth 1, after the level's
selection and pruning two nodes of depth 1 remain in the search tree: the
selected item child and the pause child, which `forward_construct_search_tree`
never prunes (bst_player_presets.py:161 skips candidates with `memory is
None`).  The claimed "at most W nodes of that depth remain" fails for `W = 1`. -/
theorem C6_counterexample :
    (BayesianTree.nodesAtDepth c6tree 1).length = 2 ∧
    ¬ ((BayesianTree.nodesAtDepth c6tree 1).length ≤ 1) := by
  have hs : evalA itemA0 [] = 9/20 := by
    norm_num [evalA, Scorer.evaluate, Scorer.calculate_individual_score,
      Scorer.calculate_shared_score, Scorer.is_repeated,
      Scorer.calculate_coherence_score, Scorer.calculate_freshness_score,
      Scorer.calculate_nonmonotonousness_score,
      Scorer.calculate_others_coherence_score_update, itemA0, subjectsOfItems,
      Engine.itemBonus, Engine.pastContext, takeUntilNone]
  have h1 : BeamSearch.compute_normalized_expectation c6t1 1 0 = 9/20 := by
    norm_num [BeamSearch.compute_normalized_expectation,
      BeamSearch.tree_branch_to_list, BeamSearch.branchWalk, c6t1, hs]
  have h2 : BeamSearch.compute_normalized_expectation c6t1 2 0 = 0 := by
    norm_num [BeamSearch.compute_normalized_expectation,
      BeamSearch.tree_branch_to_list, BeamSearch.branchWalk, c6t1]
  have htop : BeamSearch.find_top_nodes c6t1 1 [1, 2] 0 = [1] := by
    rw [BeamSearch.find_top_nodes]
    simp only [List.map_cons, List.map_nil, h1, h2]
    norm_num [List.insertionSort, List.orderedInsert, BeamSearch.keyBefore]
  have hlevel : BeamSearch.levelStep evalA [itemA0] [] 0 1 t0c6 [0] =
      (c6t1, [1]) := by
    have hexp : BeamSearch.expandAll evalA [itemA0] [] 0 t0c6 [0] =
        (c6t1, [1, 2]) := rfl
    rw [BeamSearch.levelStep, hexp]
    dsimp only
    rw [htop]
    rw [show BeamSearch.pruneUnselected [1, 2] [1] c6t1 = c6t1 from rfl]
  have hfwd : BeamSearch.forward_construct_search_tree evalA 1 1 [] [itemA0] t0c6 =
      (c6t1, [1]) := by
    show BeamSearch.forwardLoop evalA [itemA0] [] 0 1 (0 + 1) t0c6 [0] = (c6t1, [1])
    rw [BeamSearch.forwardLoop]
    rw [if_neg (by decide : ¬ (([0] : List ℕ).isEmpty = true))]
    rw [hlevel]
    rfl
  have hc : c6tree = c6t1 := by
    unfold c6tree
    rw [hfwd]
  rw [hc]
  constructor
  · rfl
  · decide

/-- C6 (amended): one level of beam selection and pruning — `_find_top_nodes`
followed by the pruning loop of `forward_construct_search_tree` — selects at
most `width` candidates as the next level's leaves; every *unselected
item-holding* candidate is fully detached and no longer reachable from the
root; but unselected *pause* candidates are never pruned: they stay attached to
their fathers and the root survives, so more than `width` nodes of that depth
can remain in the tree (`C6_counterexample`).  The hypotheses are the
well-formedness facts `expandAll` guarantees for its candidate list: distinct
fresh leaves, consistent parent/child links, and a pause sibling beside every
item candidate. -/
theorem C6_amended (t1 : BayesianTree) (cands newLeaves : List ℕ)
    (width start : ℕ)
    (hnodup : cands.Nodup)
    (hchildnodup : ∀ j, j < t1.nodes.length → (t1.childsOf j).Nodup)
    (hparent : ∀ j, j < t1.nodes.length → ∀ x ∈ t1.childsOf j,
      t1.fatherOf x = some j)
    (hattach : ∀ c ∈ cands, ∀ f ∈ (t1.fatherOf c).toList, c ∈ t1.childsOf f)
    (hleaf : ∀ c ∈ cands, t1.childsOf c = [])
    (hitem : ∀ c ∈ cands, (t1.memoryOf c).isSome = true →
      ∃ f ∈ (t1.fatherOf c).toList, ∃ p ∈ cands,
        p ≠ c ∧ t1.memoryOf p = none ∧ t1.fatherOf p = some f)
    (hrootc : ∀ c ∈ cands, ∀ r ∈ t1.root.toList, c ≠ r)
    (hnew : newLeaves = BeamSearch.find_top_nodes t1 width cands start) :
    newLeaves.length ≤ width ∧
    (∀ c ∈ cands, (t1.memoryOf c).isSome = true → c ∉ newLeaves →
      ¬ (BeamSearch.pruneUnselected cands newLeaves t1).Reach c) ∧
    (∀ c ∈ cands, t1.memoryOf c = none → ∀ f ∈ (t1.fatherOf c).toList,
      c ∈ (BeamSearch.pruneUnselected cands newLeaves t1).childsOf f) ∧
    (BeamSearch.pruneUnselected cands newLeaves t1).root = t1.root := by
  have toListMem : ∀ (o : Option ℕ) (f : ℕ), f ∈ o.toList → o = some f := by
    intro o f hf
    cases o with
    | none => cases hf
    | some g =>
      simp only [Option.toList_some, List.mem_singleton] at hf
      rw [hf]
  have memToList : ∀ (o : Option ℕ) (f : ℕ), o = some f → f ∈ o.toList := by
    intro o f hf
    rw [hf, Option.toList_some]
    exact List.mem_singleton.mpr rfl
  have hattach' : ∀ c ∈ cands, ∀ f, t1.fatherOf c = some f → c ∈ t1.childsOf f :=
    fun c hc f hf => hattach c hc f (memToList _ f hf)
  have hitem' : ∀ c ∈ cands, (t1.memoryOf c).isSome = true →
      ∃ f, t1.fatherOf c = some f ∧
        ∃ p ∈ cands, p ≠ c ∧ t1.memoryOf p = none ∧ t1.fatherOf p = some f := by
    intro c hc hm
    obtain ⟨f, hfmem, p, hp, hh1, hh2, hh3⟩ := hitem c hc hm
    exact ⟨f, toListMem _ f hfmem, p, hp, hh1, hh2, hh3⟩
  have hchildnodup' : ∀ j, (t1.childsOf j).Nodup := by
    intro j
    rcases Nat.lt_or_ge j t1.nodes.length with h | h
    · exact hchildnodup j h
    · rw [childsOf_of_ge t1 j h]
      exact List.nodup_nil
  have hparent' : ∀ j x, x ∈ t1.childsOf j → t1.fatherOf x = some j := by
    intro j x hx
    rcases Nat.lt_or_ge j t1.nodes.length with h | h
    · exact hparent j h x hx
    · rw [childsOf_of_ge t1 j h] at hx
      cases hx
  obtain ⟨kA, kB, kC, _⟩ := prune_fold t1 cands newLeaves hitem' cands hnodup
    (fun x hx => hx) t1 (fun _ => rfl) hchildnodup' hparent'
    (fun c hc _ f hf => hattach' c hc f hf)
    (fun c hc _ => ⟨hleaf c hc, rfl, fun f hf => hattach' c hc f hf⟩) rfl
  have kA' : ∀ c ∈ cands, (t1.memoryOf c).isSome = true →
      newLeaves.contains c = false →
      (BeamSearch.pruneUnselected cands newLeaves t1).fatherOf c = none ∧
      ∀ j, c ∉ (BeamSearch.pruneUnselected cands newLeaves t1).childsOf j := kA
  have kB' : ∀ c ∈ cands, t1.memoryOf c = none → ∀ f, t1.fatherOf c = some f →
      c ∈ (BeamSearch.pruneUnselected cands newLeaves t1).childsOf f := kB
  have kC' : (BeamSearch.pruneUnselected cands newLeaves t1).root = t1.root := kC
  refine ⟨?_, ?_, ?_, kC'⟩
  · rw [hnew, BeamSearch.find_top_nodes]
    simp only [List.length_map, List.length_take]
    exact min_le_left _ _
  · intro c hc hm hnot
    have hcf : newLeaves.contains c = false := by
      rcases hx : newLeaves.contains c with _ | _
      · rfl
      · exact absurd (List.mem_of_elem_eq_true hx) hnot
    obtain ⟨hA1, hA2⟩ := kA' c hc hm hcf
    refine not_reach _ c ?_ hA2
    intro r hr
    rw [kC'] at hr
    exact hrootc c hc r (memToList _ r hr)
  · intro c hc hm f hfmem
    exact kB' c hc hm f (toListMem _ f hfmem)

/-- Witness for `C6_amended` at the four-node tree `c6wt` with width 1: the
selection keeps only node 1; the unselected item node 2 becomes unreachable;
the unselected pause node 3 stays a child of the root; the root survives. -/
theorem C6_amended_witness :
    ([1] : List ℕ).length ≤ 1 ∧
    ¬ (BeamSearch.pruneUnselected [1, 2, 3] [1] c6wt).Reach 2 ∧
    3 ∈ (BeamSearch.pruneUnselected [1, 2, 3] [1] c6wt).childsOf 0 ∧
    (BeamSearch.pruneUnselected [1, 2, 3] [1] c6wt).root = c6wt.root := by
  have hnew : ([1] : List ℕ) = BeamSearch.find_top_nodes c6wt 1 [1, 2, 3] 0 := by
    have h1 : BeamSearch.compute_normalized_expectation c6wt 1 0 = 9/20 := by
      norm_num [BeamSearch.compute_normalized_expectation,
        BeamSearch.tree_branch_to_list, BeamSearch.branchWalk, c6wt]
    have h2 : BeamSearch.compute_normalized_expectation c6wt 2 0 = 1/4 := by
      norm_num [BeamSearch.compute_normalized_expectation,
        BeamSearch.tree_branch_to_list, BeamSearch.branchWalk, c6wt]
    have h3 : BeamSearch.compute_normalized_expectation c6wt 3 0 = 0 := by
      norm_num [BeamSearch.compute_normalized_expectation,
        BeamSearch.tree_branch_to_list, BeamSearch.branchWalk, c6wt]
    rw [BeamSearch.find_top_nodes]
    simp only [List.map_cons, List.map_nil, h1, h2, h3]
    norm_num [List.insertionSort, List.orderedInsert, BeamSearch.keyBefore]
  obtain ⟨h1, h2, h3, h4⟩ := C6_amended c6wt [1, 2, 3] [1] 1 0
    (by decide) (by decide) (by decide) (by decide) (by decide) (by decide)
    (by decide) hnew
  exact ⟨h1, h2 2 (by decide) (by decide) (by decide),
    h3 3 (by decide) (by decide) 0 (by decide), h4⟩

/-- C8: with no static threshold configured, the dynamic threshold at its
default parameters equals the blend-and-clamp of the exponentially-weighted
moving average (discount 0.12, seeded with the oldest score) of the realized
scores of the non-pause entries among the 83 most recent turns, and
`propose_item` returns the search's item iff its path score exceeds that
threshold, else passes. -/
theorem C8_dynamic_rule (preferences : List ℕ) (memory_bank : List Item)
    (depth width : ℕ) (competition_rate : ℚ) (history : List HistEntry) :
    BSTPlayer.dynamic_threshold_default preferences competition_rate history =
      min ((6/10) * (emaOfScores (12/100)
            (recentRealizedScores preferences competition_rate history 83)).getD (45/100) +
          (1 - 6/10) * (45/100))
        (6/10) ∧
    BSTPlayer.propose_item preferences memory_bank depth width competition_rate none history =
      (if (BeamSearch.search
            (fun item ctx => Scorer.evaluate preferences competition_rate item ctx)
            depth width history memory_bank (1/2)).2 >
          min ((6/10) * (emaOfScores (12/100)
                (recentRealizedScores preferences competition_rate history 83)).getD (45/100) +
              (1 - 6/10) * (45/100))
            (6/10)
       then (BeamSearch.search
              (fun item ctx => Scorer.evaluate preferences competition_rate item ctx)
              depth width history memory_bank (1/2)).1
       else none) := by
  have hth : BSTPlayer.dynamic_threshold_default preferences competition_rate history =
      min ((6/10) * (emaOfScores (12/100)
            (recentRealizedScores preferences competition_rate history 83)).getD (45/100) +
          (1 - 6/10) * (45/100))
        (6/10) := by
    rw [BSTPlayer.dynamic_threshold_default, BSTPlayer.dynamic_threshold]
    have h83 : (if (12/100 : ℚ) ≠ 0 then ratTrunc (10 / (12/100)) else 100) = 83 := by
      rw [if_pos (by norm_num)]
      rw [ratTrunc, if_pos (by norm_num : (0:ℚ) ≤ 10 / (12/100))]
      rw [show ⌊(10 / ((12:ℚ)/100))⌋ = 83 from by
        rw [Int.floor_eq_iff]
        constructor <;> norm_num]
    rw [h83]
    have hstart : (max 0 ((history.length : ℤ) - 83)).toNat = history.length - 83 := by
      omega
    rw [hstart]
    rw [show history.length - (history.length - 83) =
      history.length - (history.length - 83) from rfl]
    rw [← range_drop]
    rw [ema_fold_none]
    rfl
  refine ⟨hth, ?_⟩
  rw [BSTPlayer.propose_item]
  dsimp only
  rw [hth]
